import Mathlib

/-!
Verification of the query-language subsystem of the Arkiv sqlite-store
repository: a shallow embedding in Lean 4 of the filter grammar's concrete
syntax trees, the normaliser (negation pushdown and DNF), the cursor codec
and the SQL builder, together with proofs and refutations of the spec's
quantified properties.

Conventions of the embedding:
* Go pointer-optional struct fields whose populated combinations are fixed by
  the grammar become inductive constructors (`Value`, `Values`, `EqualExpr`,
  `ASTTerm`).
* Go run-time panics are modelled explicitly (`Res.panicked`, `Option.none`,
  `DecodeOutcome.crash`); a Go error return is `Res`/`Except` failure.
* Recursive Go functions whose termination is not structural are given a fuel
  parameter; every theorem quantifies over the fuel, and concrete witnesses
  evaluate at an explicit fuel.
* Go's `strings.ToLower` is modelled by `strLower` (character-wise
  `Char.toLower`), kept kernel-reducible for concrete evaluation.
-/

namespace ArkivQuery

/-- Model of Go `strings.ToLower`: lower-case every character. Defined on
the character list so that it reduces definitionally on concrete strings. -/
def strLower (s : String) : String := ⟨s.data.map Char.toLower⟩

/-- Meta attribute key "$key" (src/unnamed/part_002). -/
def KeyAttributeKey : String := "$key"
/-- Meta attribute key "$creator". -/
def CreatorAttributeKey : String := "$creator"
/-- Meta attribute key "$owner". -/
def OwnerAttributeKey : String := "$owner"
/-- Meta attribute key "$expiration". -/
def ExpirationAttributeKey : String := "$expiration"
/-- Meta attribute key "$sequence". -/
def SequenceAttributeKey : String := "$sequence"

/-- A literal value: Go `Value{String *string, Number *uint64}` where the
parser populates exactly one field. -/
inductive Value where
  | str (s : String)
  | num (n : Nat)
deriving DecidableEq

/-- A literal value list: Go `Values{Strings []string, Numbers []uint64}`
where the parser populates exactly one (non-empty) field. -/
inductive Values where
  | strs (l : List String)
  | nums (l : List Nat)
deriving DecidableEq

/-- The string entries of a `Values` (Go: the `Strings` field, which is the
empty slice when the values are numeric). -/
def Values.stringsOf : Values → List String
  | .strs l => l
  | .nums _ => []

/-- True when the values are the string variant. -/
def Values.isStrs : Values → Bool
  | .strs _ => true
  | .nums _ => false

/-- Go `Equality`: `Var (Ident|meta)`, `IsNot` (from `!=`), `Value`. -/
structure Equality where
  var : String
  isNot : Bool
  value : Value
deriving DecidableEq

/-- Go `Inclusion`: `Var`, `IsNot` (from `NOT IN`), `Values`. -/
structure Inclusion where
  var : String
  isNot : Bool
  values : Values
deriving DecidableEq

/-- Go `LessThan`: `Var < Value`. -/
structure LessThan where
  var : String
  value : Value
deriving DecidableEq

/-- Go `LessOrEqualThan`: `Var <= Value`. -/
structure LessOrEqualThan where
  var : String
  value : Value
deriving DecidableEq

/-- Go `GreaterThan`: `Var > Value`. -/
structure GreaterThan where
  var : String
  value : Value
deriving DecidableEq

/-- Go `GreaterOrEqualThan`: `Var >= Value`. -/
structure GreaterOrEqualThan where
  var : String
  value : Value
deriving DecidableEq

/-- Go `Glob`: `Var (~|!~|GLOB) String`; `Var` is an `Ident` token, so it can
never begin with `$`. -/
structure Glob where
  var : String
  isNot : Bool
  value : String
deriving DecidableEq

mutual
/-- Go `Expression{Or OrExpression}`: the concrete syntax tree root. -/
inductive Expression where
  | mk (or : OrExpression)

/-- Go `OrExpression{Left AndExpression, Right []*OrRHS}`. The `OrRHS`
wrapper (a struct holding a single `AndExpression`) is inlined. -/
inductive OrExpression where
  | mk (left : AndExpression) (right : List AndExpression)

/-- Go `AndExpression{Left EqualExpr, Right []*AndRHS}`. The `AndRHS`
wrapper (a struct holding a single `EqualExpr`) is inlined. -/
inductive AndExpression where
  | mk (left : EqualExpr) (right : List EqualExpr)

/-- Go `EqualExpr`: a struct of seven optional leaf pointers plus an optional
`Paren`, of which the parser populates exactly one. -/
inductive EqualExpr where
  | paren (p : Paren)
  | assign (e : Equality)
  | inclusion (e : Inclusion)
  | lessThan (e : LessThan)
  | lessOrEqualThan (e : LessOrEqualThan)
  | greaterThan (e : GreaterThan)
  | greaterOrEqualThan (e : GreaterOrEqualThan)
  | glob (e : Glob)

/-- Go `Paren{IsNot bool, Nested Expression}`: an optionally negated
parenthesised sub-expression. -/
inductive Paren where
  | mk (isNot : Bool) (nested : Expression)
end

/-- The `Or` field of an `Expression`. -/
def Expression.or : Expression → OrExpression
  | .mk o => o

/-- Go `TopLevel{Expression *Expression}`: the field is nil exactly when the
source text was the universal filter `$all` or `*`. -/
structure TopLevel where
  expression : Option Expression

/-- Go `ASTTerm`: a struct of seven optional leaf pointers of which
normalisation populates exactly one (there is no paren field). -/
inductive ASTTerm where
  | assign (e : Equality)
  | inclusion (e : Inclusion)
  | lessThan (e : LessThan)
  | lessOrEqualThan (e : LessOrEqualThan)
  | greaterThan (e : GreaterThan)
  | greaterOrEqualThan (e : GreaterOrEqualThan)
  | glob (e : Glob)
deriving DecidableEq

/-- Go `ASTAnd{Terms []ASTTerm}`: a conjunction of leaves. -/
structure ASTAnd where
  terms : List ASTTerm
deriving DecidableEq

/-- Go `ASTOr{Terms []ASTAnd}`: a disjunction of conjunctions. -/
structure ASTOr where
  terms : List ASTAnd
deriving DecidableEq

/-- Go `ASTExpr{Or ASTOr}`. -/
structure ASTExpr where
  or : ASTOr
deriving DecidableEq

/-- Go `AST{Expr *ASTExpr}`: `Expr` is nil for the universal filter. -/
structure AST where
  expr : Option ASTExpr
deriving DecidableEq

/-- True when `v` is one of the three case-insensitive meta attributes
matched by the `switch` statements in src/query/language.go. -/
def isMetaVar (v : String) : Bool :=
  v == KeyAttributeKey || v == OwnerAttributeKey || v == CreatorAttributeKey

/-- Go `(*Glob).invert`: flip the negation flag. -/
def Glob.invert (e : Glob) : Glob :=
  { var := e.var, isNot := !e.isNot, value := e.value }

/-- Go `(*LessThan).invert`: `<` becomes `>=`. -/
def LessThan.invert (e : LessThan) : GreaterOrEqualThan :=
  { var := e.var, value := e.value }

/-- Go `(*LessOrEqualThan).invert`: `<=` becomes `>`. -/
def LessOrEqualThan.invert (e : LessOrEqualThan) : GreaterThan :=
  { var := e.var, value := e.value }

/-- Go `(*GreaterThan).invert`: `>` becomes `<=`. -/
def GreaterThan.invert (e : GreaterThan) : LessOrEqualThan :=
  { var := e.var, value := e.value }

/-- Go `(*GreaterOrEqualThan).invert`: `>=` becomes `<`. -/
def GreaterOrEqualThan.invert (e : GreaterOrEqualThan) : LessThan :=
  { var := e.var, value := e.value }

/-- Go `(*Equality).invert`: flip the negation flag. -/
def Equality.invert (e : Equality) : Equality :=
  { var := e.var, isNot := !e.isNot, value := e.value }

/-- Go `(*Inclusion).invert`: flip the negation flag. -/
def Inclusion.invert (e : Inclusion) : Inclusion :=
  { var := e.var, isNot := !e.isNot, values := e.values }

/-- Go `(*Paren).invert`: flip the `IsNot` flag, keep the nested expression. -/
def Paren.invert : Paren → Paren
  | .mk isNot nested => .mk (!isNot) nested

/-- Go `(*EqualExpr).invert`: dispatch to the leaf inverts, exchanging the
ordered comparison kinds. -/
def EqualExpr.invert : EqualExpr → EqualExpr
  | .paren p => .paren p.invert
  | .lessThan e => .greaterOrEqualThan e.invert
  | .lessOrEqualThan e => .greaterThan e.invert
  | .greaterThan e => .lessOrEqualThan e.invert
  | .greaterOrEqualThan e => .lessThan e.invert
  | .glob e => .glob e.invert
  | .assign e => .assign e.invert
  | .inclusion e => .inclusion e.invert

/-- Go `(*AndExpression).invert`: De Morgan, producing an `OrExpression`
whose terms are the inverted conjuncts (each a one-term `AndExpression`). -/
def AndExpression.invert : AndExpression → OrExpression
  | .mk left right =>
    .mk (.mk left.invert []) (right.map fun r => .mk r.invert [])

/-- Go `(*OrExpression).invert`: De Morgan, producing an `AndExpression`
whose conjuncts are non-negated parens around the inverted disjuncts. -/
def OrExpression.invert : OrExpression → AndExpression
  | .mk left right =>
    .mk (.paren (.mk false (.mk left.invert)))
      (right.map fun r => .paren (.mk false (.mk r.invert)))

/-- The nested expression of a `Paren`. -/
def Paren.nested : Paren → Expression
  | .mk _ n => n

/-- The `IsNot` flag of a `Paren`. -/
def Paren.isNot : Paren → Bool
  | .mk b _ => b

/-- Go `(*Expression).invert`: invert the `Or`; when the result has no
right-hand terms its left conjunct is unwrapped (that conjunct is always a
paren by construction of `OrExpression.invert`; the Go code panics otherwise,
modelled as `none`); otherwise the inverted conjunction is wrapped as a
single-term `OrExpression`. -/
def Expression.invert : Expression → Option Expression
  | .mk o =>
    match o.invert with
    | .mk (.paren p) [] => some p.nested
    | .mk _ [] => none
    | nl => some (.mk (.mk nl []))

/-- Go `(*Equality).Normalise`: for meta variables, lower-case the string
value; dereferencing `*e.Value.String` of a numeric value is a nil-pointer
panic, modelled as `none`. -/
def Equality.normalise (e : Equality) : Option Equality :=
  if isMetaVar e.var then
    match e.value with
    | .str s => some { var := e.var, isNot := e.isNot, value := .str (strLower s) }
    | .num _ => none
  else some e

/-- Go `(*LessThan).Normalise` (same shape as `Equality.normalise`). -/
def LessThan.normalise (e : LessThan) : Option LessThan :=
  if isMetaVar e.var then
    match e.value with
    | .str s => some { var := e.var, value := .str (strLower s) }
    | .num _ => none
  else some e

/-- Go `(*LessOrEqualThan).Normalise`. -/
def LessOrEqualThan.normalise (e : LessOrEqualThan) : Option LessOrEqualThan :=
  if isMetaVar e.var then
    match e.value with
    | .str s => some { var := e.var, value := .str (strLower s) }
    | .num _ => none
  else some e

/-- Go `(*GreaterThan).Normalise`. -/
def GreaterThan.normalise (e : GreaterThan) : Option GreaterThan :=
  if isMetaVar e.var then
    match e.value with
    | .str s => some { var := e.var, value := .str (strLower s) }
    | .num _ => none
  else some e

/-- Go `(*GreaterOrEqualThan).Normalise`. -/
def GreaterOrEqualThan.normalise (e : GreaterOrEqualThan) : Option GreaterOrEqualThan :=
  if isMetaVar e.var then
    match e.value with
    | .str s => some { var := e.var, value := .str (strLower s) }
    | .num _ => none
  else some e

/-- Go `(*Glob).Normalise`: the identity (the source carries a TODO about
casing and changes nothing). -/
def Glob.normalise (e : Glob) : Glob := e

/-- Go `(*Inclusion).Normalise`: for meta variables the source iterates only
`e.Values.Strings` (empty when the values are numeric) and builds a fresh
`Inclusion` whose `IsNot` field is left at its zero value, so the negation
flag is dropped and numeric values vanish. -/
def Inclusion.normalise (e : Inclusion) : Inclusion :=
  if isMetaVar e.var then
    { var := e.var, isNot := false,
      values := .strs (e.values.stringsOf.map strLower) }
  else e

/-- Result of running a piece of Go code that can panic: `ok` is a normal
return, `panicked` a Go run-time panic, and `out` means the modelling fuel ran
out (no Go counterpart; all theorems quantify over the fuel). -/
inductive Res (α : Type) where
  | ok (a : α)
  | panicked (msg : String)
  | out
deriving DecidableEq

/-- Sequencing of panics: continue only on a normal return. -/
def Res.bind {α β : Type} : Res α → (α → Res β) → Res β
  | .ok a, f => f a
  | .panicked m, _ => .panicked m
  | .out, _ => .out

@[simp] theorem Res.bind_ok {α β : Type} (a : α) (f : α → Res β) :
    Res.bind (.ok a) f = f a := rfl

@[simp] theorem Res.bind_panicked {α β : Type} (m : String) (f : α → Res β) :
    Res.bind (.panicked m) f = .panicked m := rfl

@[simp] theorem Res.bind_out {α β : Type} (f : α → Res β) :
    Res.bind .out f = .out := rfl

/-- Go `(*EqualExpr).Normalise`: turn a non-paren `EqualExpr` into an
`ASTTerm`; calling it on a paren is a panic, and the leaf normalisers panic
on a meta variable with a numeric value. -/
def EqualExpr.normaliseTerm : EqualExpr → Res ASTTerm
  | .paren _ => .panicked "Called EqualExpr::Normalise on a paren, this is a bug!"
  | .lessThan e =>
    match e.normalise with
    | some x => .ok (.lessThan x)
    | none => .panicked "nil pointer dereference"
  | .lessOrEqualThan e =>
    match e.normalise with
    | some x => .ok (.lessOrEqualThan x)
    | none => .panicked "nil pointer dereference"
  | .greaterThan e =>
    match e.normalise with
    | some x => .ok (.greaterThan x)
    | none => .panicked "nil pointer dereference"
  | .greaterOrEqualThan e =>
    match e.normalise with
    | some x => .ok (.greaterOrEqualThan x)
    | none => .panicked "nil pointer dereference"
  | .glob e => .ok (.glob e.normalise)
  | .assign e =>
    match e.normalise with
    | some x => .ok (.assign x)
    | none => .panicked "nil pointer dereference"
  | .inclusion e => .ok (.inclusion e.normalise)

/-- One step of the cross product in Go `(*AndExpression).Normalise`: for
every conjunction built so far and every conjunction of the next factor,
append the two term lists. -/
def crossStep (acc : List ASTAnd) (disj : List (List ASTTerm)) : List ASTAnd :=
  acc.flatMap fun conj => disj.map fun ts => ASTAnd.mk (conj.terms ++ ts)

mutual
/-- Go `(*Expression).Normalise` (fuelled). -/
def normaliseE (fuel : Nat) (e : Expression) : Res ASTExpr :=
  match fuel, e with
  | 0, _ => .out
  | fuel + 1, .mk o => (normaliseOr fuel o).bind fun x => .ok ⟨x⟩

/-- Go `(*OrExpression).Normalise` (fuelled): the left conjunction's
normal forms followed by those of every right-hand term. -/
def normaliseOr (fuel : Nat) (o : OrExpression) : Res ASTOr :=
  match fuel, o with
  | 0, _ => .out
  | fuel + 1, .mk left right =>
    (normaliseAnd fuel left).bind fun l =>
    (normaliseAndList fuel right).bind fun rest =>
    .ok ⟨l ++ rest⟩

/-- The loop over `e.Right` in Go `(*OrExpression).Normalise`. -/
def normaliseAndList (fuel : Nat) (as : List AndExpression) : Res (List ASTAnd) :=
  match fuel, as with
  | 0, _ => .out
  | _ + 1, [] => .ok []
  | fuel + 1, a :: rest =>
    (normaliseAnd fuel a).bind fun x =>
    (normaliseAndList fuel rest).bind fun xs =>
    .ok (x ++ xs)

/-- Go `(*AndExpression).Normalise` (fuelled): convert every conjunct to its
DNF term lists, then distribute by the iterated cross product starting from
the single empty conjunction. -/
def normaliseAnd (fuel : Nat) (a : AndExpression) : Res (List ASTAnd) :=
  match fuel, a with
  | 0, _ => .out
  | fuel + 1, .mk left right =>
    (convertList fuel (left :: right)).bind fun tss =>
    .ok (tss.foldl crossStep [⟨[]⟩])

/-- The loop collecting `convertToTerms` of every conjunct. -/
def convertList (fuel : Nat) (es : List EqualExpr) : Res (List (List (List ASTTerm))) :=
  match fuel, es with
  | 0, _ => .out
  | _ + 1, [] => .ok []
  | fuel + 1, e :: rest =>
    (convertToTerms fuel e).bind fun t =>
    (convertList fuel rest).bind fun ts =>
    .ok (t :: ts)

/-- Go `(*EqualExpr).convertToTerms` (fuelled): a paren is normalised
recursively and contributes one term list per disjunct; any other conjunct
contributes the single singleton list of its normalised leaf. -/
def convertToTerms (fuel : Nat) (e : EqualExpr) : Res (List (List ASTTerm)) :=
  match fuel, e with
  | 0, _ => .out
  | fuel + 1, .paren p =>
    (parenNormalise fuel p).bind fun ne =>
    .ok (ne.or.terms.map ASTAnd.terms)
  | _ + 1, e => e.normaliseTerm.bind fun t => .ok [[t]]

/-- Go `(*Paren).Normalise` (fuelled): invert the nested expression when the
paren is negated, then normalise it. -/
def parenNormalise (fuel : Nat) (p : Paren) : Res ASTExpr :=
  match fuel, p with
  | 0, _ => .out
  | fuel + 1, .mk isNot nested =>
    if isNot then
      match nested.invert with
      | some m => normaliseE fuel m
      | none => .panicked "This should never happen!"
    else normaliseE fuel nested
end

/-- Go `(*TopLevel).Normalise`: `$all`/`*` yields the empty `AST`. -/
def topNormalise (fuel : Nat) (t : TopLevel) : Res AST :=
  match t.expression with
  | some e => (normaliseE fuel e).bind fun x => .ok ⟨some x⟩
  | none => .ok ⟨none⟩

/-- A closed assignment of truth values to the leaf predicates of a filter.
The four primitive tables give the truth of the non-negated leaf kinds; a
negated leaf is the complement, and the ordered comparisons `>=` and `>` are
the complements of `<` and `<=` (the reading under which the source's
operator exchange is negation on any totally ordered attribute domain). -/
structure Assignment where
  eq : String → Value → Bool
  lt : String → Value → Bool
  le : String → Value → Bool
  globp : String → String → Bool
  mem : String → Values → Bool

/-- Truth value of one DNF leaf under an assignment. -/
def evalTerm (σ : Assignment) : ASTTerm → Bool
  | .assign e => xor e.isNot (σ.eq e.var e.value)
  | .inclusion e => xor e.isNot (σ.mem e.var e.values)
  | .lessThan e => σ.lt e.var e.value
  | .lessOrEqualThan e => σ.le e.var e.value
  | .greaterThan e => !σ.le e.var e.value
  | .greaterOrEqualThan e => !σ.lt e.var e.value
  | .glob e => xor e.isNot (σ.globp e.var e.value)

mutual
/-- Truth value of a concrete expression under an assignment. -/
def evalExpression (σ : Assignment) : Expression → Bool
  | .mk o => evalOrExpr σ o

/-- Truth value of a concrete disjunction. -/
def evalOrExpr (σ : Assignment) : OrExpression → Bool
  | .mk left right => evalAndExpr σ left || evalAndList σ right

/-- Disjunction over a list of conjunctions. -/
def evalAndList (σ : Assignment) : List AndExpression → Bool
  | [] => false
  | a :: rest => evalAndExpr σ a || evalAndList σ rest

/-- Truth value of a concrete conjunction. -/
def evalAndExpr (σ : Assignment) : AndExpression → Bool
  | .mk left right => evalEqualExpr σ left && evalEqList σ right

/-- Conjunction over a list of conjuncts. -/
def evalEqList (σ : Assignment) : List EqualExpr → Bool
  | [] => true
  | e :: rest => evalEqualExpr σ e && evalEqList σ rest

/-- Truth value of a conjunct: leaves read the assignment, a paren evaluates
its nested expression and complements it when negated. -/
def evalEqualExpr (σ : Assignment) : EqualExpr → Bool
  | .paren (.mk isNot nested) =>
    if isNot then !evalExpression σ nested else evalExpression σ nested
  | .assign e => xor e.isNot (σ.eq e.var e.value)
  | .inclusion e => xor e.isNot (σ.mem e.var e.values)
  | .lessThan e => σ.lt e.var e.value
  | .lessOrEqualThan e => σ.le e.var e.value
  | .greaterThan e => !σ.le e.var e.value
  | .greaterOrEqualThan e => !σ.lt e.var e.value
  | .glob e => xor e.isNot (σ.globp e.var e.value)
end

/-- Truth value of a parsed top level: the universal filter is true. -/
def evalTopLevel (σ : Assignment) (t : TopLevel) : Bool :=
  match t.expression with
  | some e => evalExpression σ e
  | none => true

/-- Truth value of a DNF conjunction. -/
def evalASTAnd (σ : Assignment) (a : ASTAnd) : Bool :=
  a.terms.all (evalTerm σ)

/-- Truth value of a DNF disjunction. -/
def evalASTOr (σ : Assignment) (o : ASTOr) : Bool :=
  o.terms.any (evalASTAnd σ)

/-- Truth value of a normalised expression. -/
def evalASTExpr (σ : Assignment) (x : ASTExpr) : Bool :=
  evalASTOr σ x.or

/-- Truth value of a normalised `AST`: `Empty` is the universal predicate. -/
def evalAST (σ : Assignment) (ast : AST) : Bool :=
  match ast.expr with
  | some x => evalASTExpr σ x
  | none => true

/-- An assignment that treats the three case-insensitive meta attributes as
such: lowering the case of a string value does not change any leaf's truth
value on those variables (spec: they are case-insensitive by contract). -/
def Assignment.MetaInsensitive (σ : Assignment) : Prop :=
  ∀ v, isMetaVar v = true →
    (∀ s, σ.eq v (.str (strLower s)) = σ.eq v (.str s)) ∧
    (∀ s, σ.lt v (.str (strLower s)) = σ.lt v (.str s)) ∧
    (∀ s, σ.le v (.str (strLower s)) = σ.le v (.str s)) ∧
    (∀ ls, σ.mem v (.strs (ls.map strLower)) = σ.mem v (.strs ls))

mutual
/-- No meta-variable `In` leaf of the expression is effectively negated or
numeric-valued, where `neg` records the parity of the enclosing negations:
the sub-expressions on which `Inclusion.normalise` drops information. -/
def metaInOkE (neg : Bool) : Expression → Bool
  | .mk o => metaInOkOr neg o

/-- `metaInOkE` on a disjunction. -/
def metaInOkOr (neg : Bool) : OrExpression → Bool
  | .mk left right => metaInOkAnd neg left && metaInOkAndList neg right

/-- `metaInOkE` on a list of conjunctions. -/
def metaInOkAndList (neg : Bool) : List AndExpression → Bool
  | [] => true
  | a :: rest => metaInOkAnd neg a && metaInOkAndList neg rest

/-- `metaInOkE` on a conjunction. -/
def metaInOkAnd (neg : Bool) : AndExpression → Bool
  | .mk left right => metaInOkEq neg left && metaInOkEqList neg right

/-- `metaInOkE` on a list of conjuncts. -/
def metaInOkEqList (neg : Bool) : List EqualExpr → Bool
  | [] => true
  | e :: rest => metaInOkEq neg e && metaInOkEqList neg rest

/-- `metaInOkE` on a conjunct: parens flip the parity by their own flag;
an `In` leaf on a meta variable must have string values and be non-negated
at its effective polarity; every other leaf is unconstrained. -/
def metaInOkEq (neg : Bool) : EqualExpr → Bool
  | .paren (.mk isNot nested) => metaInOkE (xor neg isNot) nested
  | .inclusion e =>
    if isMetaVar e.var then !(xor e.isNot neg) && e.values.isStrs else true
  | _ => true
end

/-- `metaInOkE` at the top level (positive polarity). -/
def metaInOkTop (t : TopLevel) : Bool :=
  match t.expression with
  | some e => metaInOkE false e
  | none => true

theorem evalEq_invert (σ : Assignment) (q : EqualExpr) :
    evalEqualExpr σ q.invert = !evalEqualExpr σ q := by
  cases q with
  | paren p =>
    cases p with
    | mk b n =>
      cases b <;> simp [EqualExpr.invert, Paren.invert, evalEqualExpr]
  | assign e => cases h : e.isNot <;>
      simp [EqualExpr.invert, Equality.invert, evalEqualExpr, h]
  | inclusion e => cases h : e.isNot <;>
      simp [EqualExpr.invert, Inclusion.invert, evalEqualExpr, h]
  | glob e => cases h : e.isNot <;>
      simp [EqualExpr.invert, Glob.invert, evalEqualExpr, h]
  | lessThan e => simp [EqualExpr.invert, LessThan.invert, evalEqualExpr]
  | lessOrEqualThan e => simp [EqualExpr.invert, LessOrEqualThan.invert, evalEqualExpr]
  | greaterThan e => simp [EqualExpr.invert, GreaterThan.invert, evalEqualExpr]
  | greaterOrEqualThan e => simp [EqualExpr.invert, GreaterOrEqualThan.invert, evalEqualExpr]

theorem evalAndList_map_invert (σ : Assignment) (rs : List EqualExpr) :
    evalAndList σ (rs.map fun r => AndExpression.mk r.invert []) =
      !evalEqList σ rs := by
  induction rs with
  | nil => simp [evalAndList, evalEqList]
  | cons r rest ih =>
    simp [evalAndList, evalEqList, evalAndExpr, evalEqList, ih, evalEq_invert,
      Bool.not_and]

theorem evalOr_invertAnd (σ : Assignment) (a : AndExpression) :
    evalOrExpr σ a.invert = !evalAndExpr σ a := by
  cases a with
  | mk l rs =>
    simp [AndExpression.invert, evalOrExpr, evalAndExpr, evalEqList,
      evalAndList_map_invert, evalEq_invert, Bool.not_and]

theorem evalEqList_map_invert (σ : Assignment) (rs : List AndExpression) :
    evalEqList σ (rs.map fun r => EqualExpr.paren (.mk false (.mk r.invert))) =
      !evalAndList σ rs := by
  induction rs with
  | nil => simp [evalEqList, evalAndList]
  | cons r rest ih =>
    simp [evalEqList, evalAndList, evalEqualExpr, evalExpression, ih,
      evalOr_invertAnd, Bool.not_or]

theorem evalAnd_invertOr (σ : Assignment) (o : OrExpression) :
    evalAndExpr σ o.invert = !evalOrExpr σ o := by
  cases o with
  | mk l rs =>
    simp [OrExpression.invert, evalAndExpr, evalOrExpr, evalEqualExpr,
      evalExpression, evalOr_invertAnd, evalEqList_map_invert, Bool.not_or]

theorem evalE_invert (σ : Assignment) (e m : Expression)
    (h : e.invert = some m) : evalExpression σ m = !evalExpression σ e := by
  cases e with
  | mk o =>
    cases o with
    | mk l rs =>
      cases rs with
      | nil =>
        simp only [Expression.invert, OrExpression.invert, List.map_nil] at h
        cases h
        have := evalOr_invertAnd σ l
        simp [evalExpression, Paren.nested, evalOrExpr, evalAndList, this]
      | cons r rest =>
        simp only [Expression.invert, OrExpression.invert, List.map_cons] at h
        cases h
        have h2 := evalAnd_invertOr σ (OrExpression.mk l (r :: rest))
        simp only [OrExpression.invert, List.map_cons] at h2
        simp only [evalExpression, evalOrExpr, evalAndList, Bool.or_false]
        rw [h2]
        simp [evalOrExpr, evalAndList]

theorem invert_isSome (e : Expression) : e.invert.isSome = true := by
  cases e with
  | mk o =>
    cases o with
    | mk l rs => cases rs <;> simp [Expression.invert, OrExpression.invert]

theorem invertEq_invert (q : EqualExpr) : q.invert.invert = q := by
  cases q with
  | paren p => cases p with
    | mk b n => simp [EqualExpr.invert, Paren.invert]
  | assign e => simp [EqualExpr.invert, Equality.invert]
  | inclusion e => simp [EqualExpr.invert, Inclusion.invert]
  | glob e => simp [EqualExpr.invert, Glob.invert]
  | lessThan e => simp [EqualExpr.invert, LessThan.invert, GreaterOrEqualThan.invert]
  | lessOrEqualThan e => simp [EqualExpr.invert, LessOrEqualThan.invert, GreaterThan.invert]
  | greaterThan e => simp [EqualExpr.invert, GreaterThan.invert, LessOrEqualThan.invert]
  | greaterOrEqualThan e => simp [EqualExpr.invert, GreaterOrEqualThan.invert, LessThan.invert]

theorem metaInOkEq_invert (neg : Bool) (q : EqualExpr) :
    metaInOkEq neg q.invert = metaInOkEq (!neg) q := by
  cases q with
  | paren p =>
    cases p with
    | mk b n =>
      have hx : xor neg (!b) = xor (!neg) b := by cases neg <;> cases b <;> rfl
      simp [EqualExpr.invert, Paren.invert, metaInOkEq, hx]
  | inclusion e =>
    have hx : xor (!e.isNot) neg = xor e.isNot (!neg) := by
      cases neg <;> cases e.isNot <;> rfl
    simp [EqualExpr.invert, Inclusion.invert, metaInOkEq, hx]
  | assign e => simp [EqualExpr.invert, metaInOkEq]
  | glob e => simp [EqualExpr.invert, metaInOkEq]
  | lessThan e => simp [EqualExpr.invert, metaInOkEq]
  | lessOrEqualThan e => simp [EqualExpr.invert, metaInOkEq]
  | greaterThan e => simp [EqualExpr.invert, metaInOkEq]
  | greaterOrEqualThan e => simp [EqualExpr.invert, metaInOkEq]

theorem metaInOkAndList_map_invert (neg : Bool) (rs : List EqualExpr) :
    metaInOkAndList neg (rs.map fun r => AndExpression.mk r.invert []) =
      metaInOkEqList (!neg) rs := by
  induction rs with
  | nil => simp [metaInOkAndList, metaInOkEqList]
  | cons r rest ih =>
    simp [metaInOkAndList, metaInOkEqList, metaInOkAnd, ih, metaInOkEq_invert]

theorem metaInOkOr_invertAnd (neg : Bool) (a : AndExpression) :
    metaInOkOr neg a.invert = metaInOkAnd (!neg) a := by
  cases a with
  | mk l rs =>
    simp [AndExpression.invert, metaInOkOr, metaInOkAnd, metaInOkEqList,
      metaInOkAndList_map_invert, metaInOkEq_invert]

theorem metaInOkEqList_map_invert (neg : Bool) (rs : List AndExpression) :
    metaInOkEqList neg
        (rs.map fun r => EqualExpr.paren (.mk false (.mk r.invert))) =
      metaInOkAndList (!neg) rs := by
  induction rs with
  | nil => simp [metaInOkEqList, metaInOkAndList]
  | cons r rest ih =>
    simp [metaInOkEqList, metaInOkAndList, metaInOkEq, metaInOkE, ih,
      metaInOkOr_invertAnd]

theorem metaInOkAnd_invertOr (neg : Bool) (o : OrExpression) :
    metaInOkAnd neg o.invert = metaInOkOr (!neg) o := by
  cases o with
  | mk l rs =>
    simp [OrExpression.invert, metaInOkAnd, metaInOkOr, metaInOkEq, metaInOkE,
      metaInOkOr_invertAnd, metaInOkEqList_map_invert]

theorem metaInOkE_invert (neg : Bool) (e m : Expression)
    (h : e.invert = some m) : metaInOkE neg m = metaInOkE (!neg) e := by
  cases e with
  | mk o =>
    cases o with
    | mk l rs =>
      cases rs with
      | nil =>
        simp only [Expression.invert, OrExpression.invert, List.map_nil] at h
        cases h
        have := metaInOkOr_invertAnd neg l
        simp [metaInOkE, Paren.nested, metaInOkOr, metaInOkAndList, this,
          metaInOkAnd]
      | cons r rest =>
        simp only [Expression.invert, OrExpression.invert, List.map_cons] at h
        cases h
        have h2 := metaInOkAnd_invertOr neg (OrExpression.mk l (r :: rest))
        simp only [OrExpression.invert, List.map_cons] at h2
        simp only [metaInOkE, metaInOkOr, metaInOkAndList, Bool.and_true]
        rw [h2]
        simp [metaInOkOr, metaInOkAndList]

theorem normaliseTerm_eval (σ : Assignment) (hσ : σ.MetaInsensitive)
    (q : EqualExpr) (hq : metaInOkEq false q = true) (t : ASTTerm)
    (h : q.normaliseTerm = .ok t) : evalTerm σ t = evalEqualExpr σ q := by
  cases q with
  | paren p => exact absurd h (by simp [EqualExpr.normaliseTerm])
  | assign e =>
    by_cases hm : isMetaVar e.var = true
    · cases hv : e.value with
      | str s =>
        simp only [EqualExpr.normaliseTerm, Equality.normalise, hm, if_true, hv] at h
        cases h
        simp [evalTerm, evalEqualExpr, hv, ((hσ e.var hm).1 s)]
      | num n =>
        simp [EqualExpr.normaliseTerm, Equality.normalise, hm, hv] at h
    · have hm2 : isMetaVar e.var = false := by
        cases hE : isMetaVar e.var <;> simp [hE] at hm ⊢
      simp only [EqualExpr.normaliseTerm, Equality.normalise, hm2,
        Bool.false_eq_true, if_false] at h
      cases h
      rfl
  | inclusion e =>
    simp only [EqualExpr.normaliseTerm] at h
    cases h
    by_cases hm : isMetaVar e.var = true
    · simp only [metaInOkEq, hm, if_true, Bool.and_eq_true] at hq
      obtain ⟨hneg, hstrs⟩ := hq
      cases hv : e.values with
      | strs ls =>
        have hnot : e.isNot = false := by
          cases hE : e.isNot <;> simp [hE] at hneg ⊢
        simp [evalTerm, evalEqualExpr, Inclusion.normalise, hm, hv, hnot,
          Values.stringsOf, ((hσ e.var hm).2.2.2 ls)]
      | nums ls => simp [hv, Values.isStrs] at hstrs
    · have hm2 : isMetaVar e.var = false := by
        cases hE : isMetaVar e.var <;> simp [hE] at hm ⊢
      simp [evalTerm, evalEqualExpr, Inclusion.normalise, hm2]
  | glob e =>
    simp only [EqualExpr.normaliseTerm, Glob.normalise] at h
    cases h
    rfl
  | lessThan e =>
    by_cases hm : isMetaVar e.var = true
    · cases hv : e.value with
      | str s =>
        simp only [EqualExpr.normaliseTerm, LessThan.normalise, hm, if_true, hv] at h
        cases h
        simp [evalTerm, evalEqualExpr, hv, ((hσ e.var hm).2.1 s)]
      | num n => simp [EqualExpr.normaliseTerm, LessThan.normalise, hm, hv] at h
    · have hm2 : isMetaVar e.var = false := by
        cases hE : isMetaVar e.var <;> simp [hE] at hm ⊢
      simp only [EqualExpr.normaliseTerm, LessThan.normalise, hm2,
        Bool.false_eq_true, if_false] at h
      cases h
      rfl
  | lessOrEqualThan e =>
    by_cases hm : isMetaVar e.var = true
    · cases hv : e.value with
      | str s =>
        simp only [EqualExpr.normaliseTerm, LessOrEqualThan.normalise, hm,
          if_true, hv] at h
        cases h
        simp [evalTerm, evalEqualExpr, hv, ((hσ e.var hm).2.2.1 s)]
      | num n => simp [EqualExpr.normaliseTerm, LessOrEqualThan.normalise, hm, hv] at h
    · have hm2 : isMetaVar e.var = false := by
        cases hE : isMetaVar e.var <;> simp [hE] at hm ⊢
      simp only [EqualExpr.normaliseTerm, LessOrEqualThan.normalise, hm2,
        Bool.false_eq_true, if_false] at h
      cases h
      rfl
  | greaterThan e =>
    by_cases hm : isMetaVar e.var = true
    · cases hv : e.value with
      | str s =>
        simp only [EqualExpr.normaliseTerm, GreaterThan.normalise, hm,
          if_true, hv] at h
        cases h
        simp [evalTerm, evalEqualExpr, hv, ((hσ e.var hm).2.2.1 s)]
      | num n => simp [EqualExpr.normaliseTerm, GreaterThan.normalise, hm, hv] at h
    · have hm2 : isMetaVar e.var = false := by
        cases hE : isMetaVar e.var <;> simp [hE] at hm ⊢
      simp only [EqualExpr.normaliseTerm, GreaterThan.normalise, hm2,
        Bool.false_eq_true, if_false] at h
      cases h
      rfl
  | greaterOrEqualThan e =>
    by_cases hm : isMetaVar e.var = true
    · cases hv : e.value with
      | str s =>
        simp only [EqualExpr.normaliseTerm, GreaterOrEqualThan.normalise, hm,
          if_true, hv] at h
        cases h
        simp [evalTerm, evalEqualExpr, hv, ((hσ e.var hm).2.1 s)]
      | num n => simp [EqualExpr.normaliseTerm, GreaterOrEqualThan.normalise, hm, hv] at h
    · have hm2 : isMetaVar e.var = false := by
        cases hE : isMetaVar e.var <;> simp [hE] at hm ⊢
      simp only [EqualExpr.normaliseTerm, GreaterOrEqualThan.normalise, hm2,
        Bool.false_eq_true, if_false] at h
      cases h
      rfl

theorem any_and_const {α : Type} (l : List α) (p : α → Bool) (b : Bool) :
    (l.any fun x => p x && b) = (l.any p && b) := by
  cases b <;> simp

theorem any_map_general {α β : Type} (f : α → β) (l : List α) (p : β → Bool) :
    (l.map f).any p = l.any fun a => p (f a) := by
  induction l with
  | nil => simp
  | cons a as ih => simp [ih]

theorem any_crossStep (σ : Assignment) (acc : List ASTAnd)
    (ds : List (List ASTTerm)) :
    (crossStep acc ds).any (evalASTAnd σ) =
      (acc.any (evalASTAnd σ) && ds.any fun d => d.all (evalTerm σ)) := by
  unfold crossStep
  rw [List.any_flatMap]
  have inner : ∀ conj : ASTAnd,
      ((ds.map fun ts => ASTAnd.mk (conj.terms ++ ts)).any (evalASTAnd σ)) =
        (evalASTAnd σ conj && ds.any fun d => d.all (evalTerm σ)) := by
    intro conj
    rw [any_map_general]
    have hps : ∀ d : List ASTTerm,
        evalASTAnd σ (ASTAnd.mk (conj.terms ++ d)) =
          (evalASTAnd σ conj && d.all (evalTerm σ)) := by
      intro d
      simp [evalASTAnd, List.all_append]
    simp only [hps]
    cases hb : evalASTAnd σ conj <;> simp
  simp only [inner]
  rw [any_and_const]

theorem any_crossFold (σ : Assignment) (tss : List (List (List ASTTerm))) :
    ∀ acc : List ASTAnd,
      ((tss.foldl crossStep acc).any (evalASTAnd σ)) =
        (acc.any (evalASTAnd σ) &&
          tss.all fun dss => dss.any fun d => d.all (evalTerm σ)) := by
  induction tss with
  | nil => intro acc; simp
  | cons ds rest ih =>
    intro acc
    simp only [List.foldl_cons, List.all_cons]
    rw [ih, any_crossStep, Bool.and_assoc]

theorem convert_leaf (σ : Assignment) (hσ : σ.MetaInsensitive)
    {q : EqualExpr} {dss : List (List ASTTerm)}
    (hok : metaInOkEq false q = true)
    (h : (q.normaliseTerm.bind fun t => Res.ok [[t]]) = .ok dss) :
    (dss.any fun d => d.all (evalTerm σ)) = evalEqualExpr σ q := by
  cases hT : q.normaliseTerm with
  | ok t =>
    rw [hT] at h
    simp only [Res.bind_ok, Res.ok.injEq] at h
    cases h
    simp only [List.any_cons, List.any_nil, List.all_cons, List.all_nil,
      Bool.and_true, Bool.or_false]
    exact normaliseTerm_eval σ hσ q hok t hT
  | panicked m => rw [hT] at h; simp at h
  | out => rw [hT] at h; simp at h

/-- Correctness of the fuelled normaliser: whenever it returns an `AST`, the
result evaluates as the concrete expression, for any case-insensitive
assignment, provided no meta-variable `In` leaf is effectively negated or
numeric (the documented defect of `Inclusion.normalise`). The seven conjuncts
cover the seven mutually recursive functions. -/
theorem normalise_eval (σ : Assignment) (hσ : σ.MetaInsensitive) :
    ∀ fuel : Nat,
    (∀ e x, metaInOkE false e = true → normaliseE fuel e = .ok x →
      evalASTExpr σ x = evalExpression σ e) ∧
    (∀ o x, metaInOkOr false o = true → normaliseOr fuel o = .ok x →
      evalASTOr σ x = evalOrExpr σ o) ∧
    (∀ as xs, metaInOkAndList false as = true →
      normaliseAndList fuel as = .ok xs →
      xs.any (evalASTAnd σ) = evalAndList σ as) ∧
    (∀ a xs, metaInOkAnd false a = true → normaliseAnd fuel a = .ok xs →
      xs.any (evalASTAnd σ) = evalAndExpr σ a) ∧
    (∀ es tss, metaInOkEqList false es = true → convertList fuel es = .ok tss →
      (tss.all fun dss => dss.any fun d => d.all (evalTerm σ)) =
        evalEqList σ es) ∧
    (∀ q dss, metaInOkEq false q = true → convertToTerms fuel q = .ok dss →
      (dss.any fun d => d.all (evalTerm σ)) = evalEqualExpr σ q) ∧
    (∀ p x, metaInOkEq false (.paren p) = true →
      parenNormalise fuel p = .ok x →
      evalASTExpr σ x = evalEqualExpr σ (.paren p)) := by
  intro fuel
  induction fuel with
  | zero =>
    refine ⟨?_, ?_, ?_, ?_, ?_, ?_, ?_⟩ <;> intro a b _ h <;>
      simp [normaliseE, normaliseOr, normaliseAndList, normaliseAnd,
        convertList, convertToTerms, parenNormalise] at h
  | succ fuel ih =>
    obtain ⟨ihE, ihOr, ihAndL, ihAnd, ihConvL, ihConv, ihParen⟩ := ih
    refine ⟨?_, ?_, ?_, ?_, ?_, ?_, ?_⟩
    · -- Expression
      rintro ⟨o⟩ x hok h
      simp only [normaliseE] at h
      cases hOr : normaliseOr fuel o with
      | ok y =>
        rw [hOr] at h
        simp only [Res.bind_ok, Res.ok.injEq] at h
        cases h
        have := ihOr o y (by simpa [metaInOkE] using hok) hOr
        simpa [evalASTExpr, evalExpression] using this
      | panicked m => rw [hOr] at h; simp at h
      | out => rw [hOr] at h; simp at h
    · -- OrExpression
      rintro ⟨l, rs⟩ x hok h
      simp only [metaInOkOr, Bool.and_eq_true] at hok
      simp only [normaliseOr] at h
      cases hA : normaliseAnd fuel l with
      | ok la =>
        cases hL : normaliseAndList fuel rs with
        | ok ra =>
          rw [hA, hL] at h
          simp only [Res.bind_ok, Res.ok.injEq] at h
          cases h
          have h1 := ihAnd l la hok.1 hA
          have h2 := ihAndL rs ra hok.2 hL
          simp [evalASTOr, evalOrExpr, List.any_append, h1, h2]
        | panicked m => rw [hA, hL] at h; simp at h
        | out => rw [hA, hL] at h; simp at h
      | panicked m => rw [hA] at h; simp at h
      | out => rw [hA] at h; simp at h
    · -- list of AndExpressions
      intro as
      induction as with
      | nil =>
        intro xs _ h
        simp only [normaliseAndList, Res.ok.injEq] at h
        cases h
        simp [evalAndList]
      | cons a rest ihrest =>
        intro xs hok h
        simp only [metaInOkAndList, Bool.and_eq_true] at hok
        simp only [normaliseAndList] at h
        cases hA : normaliseAnd fuel a with
        | ok xa =>
          cases hR : normaliseAndList fuel rest with
          | ok xr =>
            rw [hA, hR] at h
            simp only [Res.bind_ok, Res.ok.injEq] at h
            cases h
            have h1 := ihAnd a xa hok.1 hA
            have h2 := ihAndL rest xr hok.2 hR
            simp [evalAndList, List.any_append, h1, h2]
          | panicked m => rw [hA, hR] at h; simp at h
          | out => rw [hA, hR] at h; simp at h
        | panicked m => rw [hA] at h; simp at h
        | out => rw [hA] at h; simp at h
    · -- AndExpression
      rintro ⟨l, rs⟩ xs hok h
      simp only [metaInOkAnd, Bool.and_eq_true] at hok
      simp only [normaliseAnd] at h
      cases hC : convertList fuel (l :: rs) with
      | ok tss =>
        rw [hC] at h
        simp only [Res.bind_ok, Res.ok.injEq] at h
        cases h
        have h1 := ihConvL (l :: rs) tss
          (by simp [metaInOkEqList, hok.1, hok.2]) hC
        rw [any_crossFold]
        simp only [List.any_cons, List.any_nil, evalASTAnd, List.all_nil,
          Bool.or_false, Bool.true_and]
        rw [h1]
        simp [evalAndExpr, evalEqList]
      | panicked m => rw [hC] at h; simp at h
      | out => rw [hC] at h; simp at h
    · -- list of conjuncts
      intro es
      induction es with
      | nil =>
        intro tss _ h
        simp only [convertList, Res.ok.injEq] at h
        cases h
        simp [evalEqList]
      | cons q rest ihrest =>
        intro tss hok h
        simp only [metaInOkEqList, Bool.and_eq_true] at hok
        simp only [convertList] at h
        cases hQ : convertToTerms fuel q with
        | ok t =>
          cases hR : convertList fuel rest with
          | ok ts =>
            rw [hQ, hR] at h
            simp only [Res.bind_ok, Res.ok.injEq] at h
            cases h
            have h1 := ihConv q t hok.1 hQ
            have h2 := ihConvL rest ts hok.2 hR
            simp [evalEqList, h1, h2]
          | panicked m => rw [hQ, hR] at h; simp at h
          | out => rw [hQ, hR] at h; simp at h
        | panicked m => rw [hQ] at h; simp at h
        | out => rw [hQ] at h; simp at h
    · -- convertToTerms
      intro q dss hok h
      cases q with
      | paren p =>
        simp only [convertToTerms] at h
        cases hP : parenNormalise fuel p with
        | ok ne =>
          rw [hP] at h
          simp only [Res.bind_ok, Res.ok.injEq] at h
          cases h
          have h1 := ihParen p ne hok hP
          rw [any_map_general]
          simpa [evalASTExpr, evalASTOr, evalASTAnd] using h1
        | panicked m => rw [hP] at h; simp at h
        | out => rw [hP] at h; simp at h
      | assign e => exact convert_leaf σ hσ hok h
      | inclusion e => exact convert_leaf σ hσ hok h
      | lessThan e => exact convert_leaf σ hσ hok h
      | lessOrEqualThan e => exact convert_leaf σ hσ hok h
      | greaterThan e => exact convert_leaf σ hσ hok h
      | greaterOrEqualThan e => exact convert_leaf σ hσ hok h
      | glob e => exact convert_leaf σ hσ hok h
    · -- Paren
      rintro ⟨isNot, nested⟩ x hok h
      simp only [metaInOkEq] at hok
      simp only [parenNormalise] at h
      cases hN : isNot with
      | false =>
        rw [hN] at h hok
        simp only [if_false, Bool.false_eq_true, Bool.xor_false] at h hok
        have := ihE nested x (by simpa using hok) (by simpa using h)
        simp [evalEqualExpr, this]
      | true =>
        rw [hN] at h hok
        simp only [if_true, Bool.xor_true] at h hok
        cases hI : nested.invert with
        | none =>
          have := invert_isSome nested
          rw [hI] at this
          simp at this
        | some m =>
          rw [hI] at h
          simp only [] at h
          have hokm : metaInOkE false m = true := by
            rw [metaInOkE_invert false nested m hI]
            simpa using hok
          have := ihE m x hokm h
          rw [evalE_invert σ nested m hI] at this
          simp [evalEqualExpr, this]

/-- Correctness of `topNormalise` (helper shared by the claim theorems):
the parsed expression and the returned `AST` agree on every case-insensitive
assignment, provided no meta-variable `In` leaf is effectively negated or
numeric. -/
theorem topNormalise_eval (σ : Assignment) (hσ : σ.MetaInsensitive)
    (fuel : Nat) (t : TopLevel) (ast : AST) (hok : metaInOkTop t = true)
    (h : topNormalise fuel t = .ok ast) :
    evalTopLevel σ t = evalAST σ ast := by
  cases hTE : t.expression with
  | none =>
    simp only [topNormalise, hTE, Res.ok.injEq] at h
    cases h
    simp [evalTopLevel, evalAST, hTE]
  | some e =>
    simp only [topNormalise, hTE] at h
    cases hE : normaliseE fuel e with
    | ok x =>
      rw [hE] at h
      simp only [Res.bind_ok, Res.ok.injEq] at h
      cases h
      have hok2 : metaInOkE false e = true := by
        simpa [metaInOkTop, hTE] using hok
      have := (normalise_eval σ hσ fuel).1 e x hok2 hE
      simp [evalTopLevel, evalAST, hTE, this]
    | panicked m => rw [hE] at h; simp at h
    | out => rw [hE] at h; simp at h

/-- A generic boolean expression tree used to state the structural
post-conditions of normalisation: unlike the Go `AST` types, it can express
negations, parenthesised grouping (as `notN` over a subtree), and arbitrary
nesting of `orN`/`andN`. -/
inductive BoolTree where
  | orN (children : List BoolTree)
  | andN (children : List BoolTree)
  | notN (child : BoolTree)
  | leaf (t : ASTTerm)

/-- Is the root an `orN` node. -/
def BoolTree.isOrNode : BoolTree → Bool
  | .orN _ => true
  | _ => false

/-- Is the root an `andN` node. -/
def BoolTree.isAndNode : BoolTree → Bool
  | .andN _ => true
  | _ => false

mutual
/-- No negation (and hence no negated paren) occurs anywhere in the tree. -/
def noNotTree : BoolTree → Bool
  | .orN cs => noNotList cs
  | .andN cs => noNotList cs
  | .notN _ => false
  | .leaf _ => true

/-- `noNotTree` over a list of children. -/
def noNotList : List BoolTree → Bool
  | [] => true
  | t :: ts => noNotTree t && noNotList ts
end

mutual
/-- No `orN` node has an `orN` child and no `andN` node has an `andN`
child, recursively. -/
def flatTree : BoolTree → Bool
  | .orN cs => cs.all (fun c => !c.isOrNode) && flatList cs
  | .andN cs => cs.all (fun c => !c.isAndNode) && flatList cs
  | .notN c => flatTree c
  | .leaf _ => true

/-- `flatTree` over a list of children. -/
def flatList : List BoolTree → Bool
  | [] => true
  | t :: ts => flatTree t && flatList ts
end

/-- View of a DNF conjunction as a generic tree. -/
def treeOfAnd (a : ASTAnd) : BoolTree := .andN (a.terms.map .leaf)

/-- View of a normalised expression as a generic tree. -/
def treeOfExpr (x : ASTExpr) : BoolTree := .orN (x.or.terms.map treeOfAnd)

theorem noNotList_leaves (l : List ASTTerm) :
    noNotList (l.map .leaf) = true := by
  induction l with
  | nil => rfl
  | cons t ts ih => simp [noNotList, noNotTree, ih]

theorem flatList_leaves (l : List ASTTerm) :
    flatList (l.map .leaf) = true := by
  induction l with
  | nil => rfl
  | cons t ts ih => simp [flatList, flatTree, ih]

theorem treeOfExpr_noNot (x : ASTExpr) : noNotTree (treeOfExpr x) = true := by
  unfold treeOfExpr
  simp only [noNotTree]
  induction x.or.terms with
  | nil => rfl
  | cons a as ih =>
    simp [noNotList, treeOfAnd, noNotTree, noNotList_leaves, ih]

theorem treeOfExpr_flat (x : ASTExpr) : flatTree (treeOfExpr x) = true := by
  unfold treeOfExpr
  simp only [flatTree]
  have h1 : ∀ as : List ASTAnd,
      (as.map treeOfAnd).all (fun c => !c.isOrNode) = true := by
    intro as
    induction as with
    | nil => rfl
    | cons a rest ih => simp [treeOfAnd, BoolTree.isOrNode, ih]
  have h2 : ∀ as : List ASTAnd, flatList (as.map treeOfAnd) = true := by
    intro as
    induction as with
    | nil => rfl
    | cons a rest ih =>
      have hleaf : ∀ l : List ASTTerm,
          (l.map BoolTree.leaf).all (fun c => !c.isAndNode) = true := by
        intro l
        induction l with
        | nil => rfl
        | cons t ts iht => simp [BoolTree.isAndNode, iht]
      simp [flatList, treeOfAnd, flatTree, flatList_leaves, hleaf, ih]
  simp [h1, h2]

/-- The everywhere-true assignment (used by concrete witnesses). -/
def sigTrue : Assignment :=
  ⟨fun _ _ => true, fun _ _ => true, fun _ _ => true,
   fun _ _ => true, fun _ _ => true⟩

theorem sigTrue_insensitive : sigTrue.MetaInsensitive :=
  fun _ _ => ⟨fun _ => rfl, fun _ => rfl, fun _ => rfl, fun _ => rfl⟩

/-- Extract the `AST` from a normalisation result (total helper for stating
closed evaluations; the fallback is the empty `AST`). -/
def astOfRes : Res AST → AST
  | .ok a => a
  | _ => ⟨none⟩

/-- Extract an `Expression` from an optional one, with fallback. -/
def optExprD (o : Option Expression) (d : Expression) : Expression :=
  match o with
  | some m => m
  | none => d

mutual
/-- Does the concrete expression contain any `Paren` node? Structural
identity up to reordering of leaves within conjunctions preserves this
property, since reordering neither creates nor removes `Paren` nodes. -/
def hasParenE : Expression → Bool
  | .mk o => hasParenOr o

/-- `hasParenE` on a disjunction. -/
def hasParenOr : OrExpression → Bool
  | .mk left right => hasParenAnd left || hasParenAndList right

/-- `hasParenE` on a list of conjunctions. -/
def hasParenAndList : List AndExpression → Bool
  | [] => false
  | a :: rest => hasParenAnd a || hasParenAndList rest

/-- `hasParenE` on a conjunction. -/
def hasParenAnd : AndExpression → Bool
  | .mk left right => hasParenEq left || hasParenEqList right

/-- `hasParenE` on a list of conjuncts. -/
def hasParenEqList : List EqualExpr → Bool
  | [] => false
  | e :: rest => hasParenEq e || hasParenEqList rest

/-- `hasParenE` on a conjunct. -/
def hasParenEq : EqualExpr → Bool
  | .paren _ => true
  | _ => false
end

/-- A one-conjunct `AndExpression` around an equality leaf (fixture
helper). -/
def andOfEq (v : String) (n : Nat) : AndExpression :=
  .mk (.assign ⟨v, false, .num n⟩) []

/-- Concrete filter `!(name = 123 || name = 456)` (a CST the parser produces
for that text; see the Go test `not parentheses`). -/
def cstNotOr : TopLevel :=
  ⟨some (.mk (.mk (.mk (.paren (.mk true
     (.mk (.mk (andOfEq "name" 123) [andOfEq "name" 456])))) []) []))⟩

/-- Concrete filter `$owner NOT IN ("a")` (a CST the parser produces: the
`Inclusion` variable alternatives include the `Owner` token). -/
def cstOwnerNotIn : TopLevel :=
  ⟨some (.mk (.mk (.mk (.inclusion ⟨OwnerAttributeKey, true, .strs ["a"]⟩) []) []))⟩

/-- Concrete filter `a = 1 || b = 2`. -/
def cstAorB : Expression :=
  .mk (.mk (andOfEq "a" 1) [andOfEq "b" 2])

/-- C1. The claim as stated is false on the code: for the parseable filter
`$owner NOT IN ("a")` and the everywhere-true assignment (which is
case-insensitive on the meta attributes), the concrete expression evaluates
to `false` (the leaf is negated) while the DNF produced by `Normalise`
evaluates to `true`, because `Inclusion.Normalise` drops the negate flag of
meta-variable `In` leaves. -/
theorem c1_dnf_equivalence_counterexample :
    sigTrue.MetaInsensitive ∧
    topNormalise 9 cstOwnerNotIn = .ok (astOfRes (topNormalise 9 cstOwnerNotIn)) ∧
    evalTopLevel sigTrue cstOwnerNotIn = false ∧
    evalAST sigTrue (astOfRes (topNormalise 9 cstOwnerNotIn)) = true :=
  ⟨sigTrue_insensitive, rfl, rfl, rfl⟩

/-- C1 (amended). DNF equivalence: for every filter accepted by the parser
(quantified here over all concrete syntax trees, a superset of the parser's
outputs) in which no `In` leaf over `$key`/`$owner`/`$creator` is effectively
negated or numeric-valued, and every assignment of truth values to the leaf
predicates that is case-insensitive on those meta attributes, the parsed
concrete expression and the AST produced by `Normalise` evaluate to the same
boolean value (whenever normalisation returns, at any fuel). -/
theorem c1_dnf_equivalence_amended (fuel : Nat) (t : TopLevel) (ast : AST)
    (σ : Assignment) (hσ : σ.MetaInsensitive) (hok : metaInOkTop t = true)
    (h : topNormalise fuel t = .ok ast) :
    evalTopLevel σ t = evalAST σ ast :=
  topNormalise_eval σ hσ fuel t ast hok h

/-- C1 witness: the amended theorem applied to the concrete filter
`!(name = 123 || name = 456)` at fuel 20 under the everywhere-true
assignment. -/
theorem c1_dnf_equivalence_witness :
    evalTopLevel sigTrue cstNotOr =
      evalAST sigTrue (astOfRes (topNormalise 20 cstNotOr)) :=
  c1_dnf_equivalence_amended 20 cstNotOr (astOfRes (topNormalise 20 cstNotOr))
    sigTrue sigTrue_insensitive rfl rfl

/-- C2. Structural post-conditions of normalisation: whenever
`Normalise(Parse(f))` returns an `AST` (quantified over all concrete syntax
trees and any fuel), the `AST` is `Empty` exactly when the top level was
`$all`/`*` (the CST's expression pointer is nil), and the generic-tree view
of a non-empty result contains no negation/paren node, no `Or` nested under
an `Or`, and no `And` nested under an `And` (the Go `AST` types make the
nesting unrepresentable; the generic `BoolTree` view makes the statement a
theorem rather than a typing fact). -/
theorem c2_postconditions (fuel : Nat) (t : TopLevel) (ast : AST)
    (h : topNormalise fuel t = .ok ast) :
    ((ast.expr = none) ↔ (t.expression = none)) ∧
    (∀ x, ast.expr = some x →
      noNotTree (treeOfExpr x) = true ∧ flatTree (treeOfExpr x) = true) := by
  constructor
  · cases hTE : t.expression with
    | none =>
      simp only [topNormalise, hTE, Res.ok.injEq] at h
      cases h
      simp
    | some e =>
      simp only [topNormalise, hTE] at h
      cases hE : normaliseE fuel e with
      | ok x =>
        rw [hE] at h
        simp only [Res.bind_ok, Res.ok.injEq] at h
        cases h
        simp
      | panicked m => rw [hE] at h; simp at h
      | out => rw [hE] at h; simp at h
  · intro x _
    exact ⟨treeOfExpr_noNot x, treeOfExpr_flat x⟩

/-- C2 witness: the post-conditions at the concrete filter
`!(name = 123 || name = 456)` and fuel 20. -/
theorem c2_postconditions_witness :
    ((astOfRes (topNormalise 20 cstNotOr)).expr = none ↔
      cstNotOr.expression = none) ∧
    (∀ x, (astOfRes (topNormalise 20 cstNotOr)).expr = some x →
      noNotTree (treeOfExpr x) = true ∧ flatTree (treeOfExpr x) = true) :=
  c2_postconditions 20 cstNotOr (astOfRes (topNormalise 20 cstNotOr)) rfl

/-- C3. `Invert` computes logical negation: at the leaf level the negate
flag of `Eq`/`Glob`/`In` flips and the ordered comparisons are exchanged
(`<` with `>=`, `<=` with `>`), which complements the leaf's truth value
under every assignment; `Expression.invert` never panics; and whenever it
returns, the result evaluates to the complement of the input (De Morgan over
`OR` and `AND`). -/
theorem c3_invert_negation :
    (∀ q σ, evalEqualExpr σ q.invert = !evalEqualExpr σ q) ∧
    (∀ e : Expression, e.invert.isSome = true) ∧
    (∀ e m σ, e.invert = some m →
      evalExpression σ m = !evalExpression σ e) :=
  ⟨fun q σ => evalEq_invert σ q, invert_isSome,
   fun e m σ h => evalE_invert σ e m h⟩

/-- C3 witness: the expression-level statement applied to `a = 1 || b = 2`
under the everywhere-true assignment. -/
theorem c3_invert_negation_witness :
    evalExpression sigTrue (optExprD cstAorB.invert cstAorB) =
      !evalExpression sigTrue cstAorB :=
  c3_invert_negation.2.2 cstAorB (optExprD cstAorB.invert cstAorB) sigTrue rfl

/-- C4. The claim as stated is false on the code: for the paren-free
concrete expression `a = 1 || b = 2`, `Invert(Invert(e))` is defined and
contains a `Paren` node (a negated-paren wrapper introduced by De Morgan),
so it is not structurally identical to `e` under any reordering of leaves
within conjunctions (reordering leaves can neither create nor remove `Paren`
nodes). -/
theorem c4_double_negation_counterexample :
    (cstAorB.invert.bind Expression.invert) =
      some (optExprD (cstAorB.invert.bind Expression.invert) cstAorB) ∧
    hasParenE cstAorB = false ∧
    hasParenE (optExprD (cstAorB.invert.bind Expression.invert) cstAorB) = true :=
  ⟨rfl, rfl, rfl⟩

/-- C4 (amended). Double application of `Invert` is the identity on leaf
conjuncts, and at the expression level `Invert(Invert(e))` is semantically
identical to `e`: it evaluates to the same boolean under every assignment
(structural identity fails, as the counterexample shows). -/
theorem c4_double_negation_amended :
    (∀ q : EqualExpr, q.invert.invert = q) ∧
    (∀ (e e1 e2 : Expression) σ, e.invert = some e1 → e1.invert = some e2 →
      evalExpression σ e2 = evalExpression σ e) := by
  refine ⟨invertEq_invert, fun e e1 e2 σ h1 h2 => ?_⟩
  rw [evalE_invert σ e1 e2 h2, evalE_invert σ e e1 h1, Bool.not_not]

/-- C4 witness: the amended semantic statement applied to `a = 1 || b = 2`
under the everywhere-true assignment. -/
theorem c4_double_negation_witness :
    evalExpression sigTrue
        (optExprD (cstAorB.invert.bind Expression.invert) cstAorB) =
      evalExpression sigTrue cstAorB :=
  c4_double_negation_amended.2 cstAorB (optExprD cstAorB.invert cstAorB)
    (optExprD (cstAorB.invert.bind Expression.invert) cstAorB) sigTrue rfl rfl

/-- C5. Evaluation of the code at the failing input: normalising the
`Inclusion` leaf of `$owner NOT IN ("0xABC")` lower-cases the values but
resets the negate flag to `false`, so the flag is not the same before and
after normalisation (the code contradicts the spec's normalisation step,
which only case-lowers values, and the emitters, which honour the flag). -/
theorem c5_meta_lowercase_drops_negate :
    Inclusion.normalise ⟨OwnerAttributeKey, true, .strs ["0xABC"]⟩ =
      ⟨OwnerAttributeKey, false, .strs ["0xabc"]⟩ ∧
    (Inclusion.normalise ⟨OwnerAttributeKey, true, .strs ["0xABC"]⟩).isNot ≠
      (⟨OwnerAttributeKey, true, .strs ["0xABC"]⟩ : Inclusion).isNot :=
  ⟨rfl, by decide⟩

/-- C10. The grammar accepts `$owner = 5` (`Equality.Var` admits the `Owner`
token and `Value` admits `Number`), but `Equality.Normalise` dereferences the
nil `Value.String` pointer of the numeric literal, so `Parse` panics instead
of returning an error or an `AST`: at every sufficient fuel the model of
normalisation reaches the modelled nil-pointer dereference. -/
theorem c10_meta_numeric_panic :
    ∀ k : Nat,
      topNormalise (k + 5)
          ⟨some (.mk (.mk (.mk (.assign ⟨OwnerAttributeKey, false, .num 5⟩) []) []))⟩ =
        .panicked "nil pointer dereference" := by
  intro k
  rfl

/-! ### Cursor codec (src/unnamed/part_000) and query options

The JSON transport (`encoding/json`) is modelled at the value level: the
marshalled cursor is a `List JItem` (the JSON array, numbers carrying the
exact integer the marshaller prints), and the hex layer is the identity on
that array. On the way back, `json.Unmarshal` into `[]any` turns every
number into a `float64`: the decoder therefore sees each number through
`floatOfNat`, the rounding of an integer to the nearest `float64`
(`jRound` below), which is the identity below `2^53` and lossy above.
`[]byte` values marshal to base64 strings exactly as `encoding/json`
does. -/

/-- A JSON array element of the encoded cursor. -/
inductive JItem where
  | jnum (n : Nat)
  | jstr (s : String)
deriving DecidableEq

/-- Fuelled binary logarithm: `log2F fuel n = ⌊log₂ n⌋` whenever
`fuel ≥ ⌊log₂ n⌋ + 1` (each step halves `n`). -/
def log2F : Nat → Nat → Nat
  | 0, _ => 0
  | fuel + 1, n => if 2 ≤ n then log2F fuel (n / 2) + 1 else 0

/-- The integer Go reads back after `json.Unmarshal` decodes an integer
literal into `float64`: integers up to `2^53` are represented exactly;
above, the literal is rounded to the nearest multiple of the unit in the
last place `2^(e-52)` (ties to even), where `e = ⌊log₂ n⌋` is the binary
exponent. The cursor's integers are Go `uint64`/`int` values, so `e < 64`
and fuel 64 computes the exponent exactly on the whole range the program
can produce. -/
def floatOfNat (n : Nat) : Nat :=
  if n ≤ 2 ^ 53 then n
  else
    let e := log2F 64 n
    let u := 2 ^ (e - 52)
    let q := n / u
    let r := n % u
    if 2 * r < u then q * u
    else if u < 2 * r then (q + 1) * u
    else (q + q % 2) * u

/-- What `json.Unmarshal` into `[]any` makes of one array element: numbers
become `float64` (rounded), strings stay strings. -/
def jRound : JItem → JItem
  | .jnum n => .jnum (floatOfNat n)
  | .jstr s => .jstr s

theorem floatOfNat_small (n : Nat) (h : n ≤ 2 ^ 53) : floatOfNat n = n := by
  unfold floatOfNat
  rw [if_pos h]

/-- A dynamically typed cursor value (Go `any`): an integer, a string, or a
byte slice (bytes as naturals below 256). -/
inductive CVal where
  | num (n : Nat)
  | str (s : String)
  | bytes (bs : List Nat)
deriving DecidableEq

/-- The standard base64 alphabet. -/
def b64Alphabet : List Char :=
  "ABCDEFGHIJKLMNOPQRSTUVWXYZabcdefghijklmnopqrstuvwxyz0123456789+/".data

/-- The base64 digit for an index below 64. -/
def b64Char (i : Nat) : Char := b64Alphabet.getD i 'A'

/-- The index of a base64 digit ('=' and junk give `none`). -/
def b64Index (c : Char) : Option Nat := b64Alphabet.indexOf? c

/-- Model of `base64.StdEncoding.EncodeToString`, producing the padded digit
list of a byte list. -/
def b64encodeChars : List Nat → List Char
  | [] => []
  | [a] => [b64Char (a / 4), b64Char (a % 4 * 16), '=', '=']
  | [a, b] => [b64Char (a / 4), b64Char (a % 4 * 16 + b / 16), b64Char (b % 16 * 4), '=']
  | a :: b :: c :: rest =>
    b64Char (a / 4) :: b64Char (a % 4 * 16 + b / 16) ::
    b64Char (b % 16 * 4 + c / 64) :: b64Char (c % 64) :: b64encodeChars rest

/-- Model of `base64.StdEncoding.EncodeToString`. -/
def b64encode (bs : List Nat) : String := ⟨b64encodeChars bs⟩

/-- Model of `base64.StdEncoding.DecodeString` on the digit list: groups of
four digits with standard padding; anything else is rejected. -/
def b64decodeChars : List Char → Option (List Nat)
  | [] => some []
  | c1 :: c2 :: c3 :: c4 :: rest =>
    match b64Index c1, b64Index c2 with
    | some i1, some i2 =>
      if c3 = '=' then
        if c4 = '=' ∧ rest = [] then some [i1 * 4 + i2 / 16] else none
      else
        match b64Index c3 with
        | some i3 =>
          if c4 = '=' then
            if rest = [] then some [i1 * 4 + i2 / 16, i2 % 16 * 16 + i3 / 4]
            else none
          else
            match b64Index c4 with
            | some i4 =>
              match b64decodeChars rest with
              | some bs =>
                some ((i1 * 4 + i2 / 16) :: (i2 % 16 * 16 + i3 / 4) ::
                  (i3 % 4 * 64 + i4) :: bs)
              | none => none
            | none => none
        | none => none
    | _, _ => none
  | _ => none

/-- Model of `base64.StdEncoding.DecodeString`. -/
def b64decode (s : String) : Option (List Nat) := b64decodeChars s.data

theorem b64Index_b64Char : ∀ i < 64, b64Index (b64Char i) = some i := by
  decide

theorem b64Char_ne_pad : ∀ i < 64, b64Char i ≠ '=' := by
  decide

theorem b64decode_encode (bs : List Nat) (h : ∀ x ∈ bs, x < 256) :
    b64decodeChars (b64encodeChars bs) = some bs := by
  match bs with
  | [] => rfl
  | [a] =>
    have ha := h a (by simp)
    have h1 : a / 4 < 64 := by omega
    have h2 : a % 4 * 16 < 64 := by omega
    simp only [b64encodeChars, b64decodeChars, b64Index_b64Char _ h1,
      b64Index_b64Char _ h2]
    simp [b64Char_ne_pad _ h1, b64Char_ne_pad _ h2]
    omega
  | [a, b] =>
    have ha := h a (by simp)
    have hb := h b (by simp)
    have h1 : a / 4 < 64 := by omega
    have h2 : a % 4 * 16 + b / 16 < 64 := by omega
    have h3 : b % 16 * 4 < 64 := by omega
    simp only [b64encodeChars, b64decodeChars, b64Index_b64Char _ h1,
      b64Index_b64Char _ h2, b64Index_b64Char _ h3]
    simp [b64Char_ne_pad _ h1, b64Char_ne_pad _ h2, b64Char_ne_pad _ h3]
    constructor <;> omega
  | a :: b :: c :: rest =>
    have ha := h a (by simp)
    have hb := h b (by simp)
    have hc := h c (by simp)
    have hrest : ∀ x ∈ rest, x < 256 := fun x hx => h x (by simp [hx])
    have h1 : a / 4 < 64 := by omega
    have h2 : a % 4 * 16 + b / 16 < 64 := by omega
    have h3 : b % 16 * 4 + c / 64 < 64 := by omega
    have h4 : c % 64 < 64 := by omega
    have ih := b64decode_encode rest hrest
    simp only [b64encodeChars, b64decodeChars, b64Index_b64Char _ h1,
      b64Index_b64Char _ h2, b64Index_b64Char _ h3, b64Index_b64Char _ h4]
    simp [b64Char_ne_pad _ h1, b64Char_ne_pad _ h2, b64Char_ne_pad _ h3,
      b64Char_ne_pad _ h4, ih]
    refine ⟨by omega, by omega, by omega⟩

/-- Go `Column` (src/query/query_options.go). -/
structure Column where
  name : String
  qualifiedName : String
  isBytes : Bool
deriving DecidableEq

/-- Fallback column for list indexing (Go indexing cannot miss once the
bounds check has passed). -/
def defaultColumn : Column := ⟨"", "", false⟩

/-- Go `OrderBy`. -/
structure OrderBy where
  column : Column
  descending : Bool
deriving DecidableEq

/-- Go `OrderByAnnotation` (src/unnamed/part_002); `typ` models the Go field
`Type`. -/
structure OrderByAnnot where
  name : String
  typ : String
  descending : Bool
deriving DecidableEq

/-- Go `CursorValue`. -/
structure CursorValue where
  columnName : String
  value : CVal
  descending : Bool
deriving DecidableEq

/-- Go `Cursor`. -/
structure Cursor where
  blockNumber : Nat
  columnValues : List CursorValue
deriving DecidableEq

/-- Go `QueryOptions` (the fields the query builder and codec read; the
logger and caches are omitted). -/
structure QueryOptions where
  atBlock : Nat
  columns : List Column
  orderBy : List OrderBy
  orderByAnnots : List OrderByAnnot
  cursor : List CursorValue

/-- Model of Go `cmp.Compare(a, b) < 0` on strings: lexicographic
comparison, kept kernel-reducible by working on the character lists. -/
def strListLt : List Char → List Char → Bool
  | [], [] => false
  | [], _ :: _ => true
  | _ :: _, [] => false
  | a :: as, b :: bs =>
    if a.toNat < b.toNat then true
    else if b.toNat < a.toNat then false
    else strListLt as bs

/-- Lexicographic string comparison (Go `cmp.Compare(a, b) < 0`). -/
def strLt (a b : String) : Bool := strListLt a.data b.data

/-- The loop of Go `slices.BinarySearchFunc` (fuelled; the fuel is set to the
list length, which bounds the iteration count since `j - i` shrinks every
step). -/
def bsearchLoop (cols : List Column) (target : String) :
    Nat → Nat → Nat → Nat
  | 0, i, _ => i
  | fuel + 1, i, j =>
    if i < j then
      let m := (i + j) / 2
      if strLt (cols.getD m defaultColumn).name target then
        bsearchLoop cols target fuel (m + 1) j
      else bsearchLoop cols target fuel i m
    else i

/-- Go `(*QueryOptions).GetColumnIndex`: binary search by column name; the
`found` condition re-checks the name at the returned index. -/
def GetColumnIndex (opts : QueryOptions) (column : String) : Except String Nat :=
  let ix := bsearchLoop opts.columns column opts.columns.length 0 opts.columns.length
  if ix < opts.columns.length ∧ (opts.columns.getD ix defaultColumn).name = column
  then .ok ix
  else .error ("unknown column " ++ column)

theorem GetColumnIndex_ok (opts : QueryOptions) (column : String) (ix : Nat)
    (h : GetColumnIndex opts column = .ok ix) :
    ix < opts.columns.length ∧
      (opts.columns.getD ix defaultColumn).name = column := by
  unfold GetColumnIndex at h
  dsimp only at h
  split at h
  · cases h
    assumption
  · cases h

/-- JSON marshalling of a cursor value: `encoding/json` renders integers as
numbers, strings as strings, and `[]byte` as base64 strings. -/
def jsonOfCVal : CVal → JItem
  | .num n => .jnum n
  | .str s => .jstr s
  | .bytes bs => .jstr (b64encode bs)

/-- A decoded non-byte cursor value stays the raw JSON value (Go keeps the
`any` from `json.Unmarshal`). -/
def cvalOfJItem : JItem → CVal
  | .jnum n => .num n
  | .jstr s => .str s

/-- The per-column loop of Go `(*QueryOptions).EncodeCursor`: each cursor
value contributes the triple (column index, value, descending flag). -/
def encodeCVs (opts : QueryOptions) : List CursorValue → Except String (List JItem)
  | [] => .ok []
  | c :: rest =>
    match GetColumnIndex opts c.columnName with
    | .ok columnIx =>
      match encodeCVs opts rest with
      | .ok rs =>
        .ok (.jnum columnIx :: jsonOfCVal c.value ::
          .jnum (if c.descending then 1 else 0) :: rs)
      | .error m => .error m
    | .error m => .error ("could not find column index: " ++ m)

/-- Go `(*QueryOptions).EncodeCursor` up to the JSON/hex transport: the
marshalled JSON array, whose first element is the block number. -/
def encodeCursorItems (opts : QueryOptions) (cursor : Cursor) :
    Except String (List JItem) :=
  match encodeCVs opts cursor.columnValues with
  | .ok triples => .ok (.jnum cursor.blockNumber :: triples)
  | .error m => .error m

/-- Result of running the decoder: a normal return, a Go error return, or a
Go run-time panic. -/
inductive DecRes (α : Type) where
  | ok (a : α)
  | err (msg : String)
  | crash (msg : String)
deriving DecidableEq

/-- The value handling of one chunk iteration of Go `DecodeCursor`: byte
columns require a base64 string value, other columns keep the raw JSON
value. -/
def decodeOneValue (opts : QueryOptions) (columnIx : Nat) (c1 : JItem) :
    DecRes CVal :=
  if (opts.columns.getD columnIx defaultColumn).isBytes then
    match c1 with
    | .jstr s =>
      match b64decode s with
      | some bs => .ok (.bytes bs)
      | none => .err "failed to decode cursor"
    | .jnum _ => .err "failed to decode cursor, byte column is not a string"
  else .ok (cvalOfJItem c1)

/-- The chunk loop of Go `(*QueryOptions).DecodeCursor` over
`slices.Chunk(encoded[1:], 3)`. Faithful to the source, a triple whose
descending element is not a number makes the error path read `c[3]` of a
length-three chunk: an index-out-of-range panic, modelled as `crash`. -/
def decodeChunks (opts : QueryOptions) : List JItem → DecRes (List CursorValue)
  | [] => .ok []
  | c0 :: c1 :: c2 :: rest =>
    match c0 with
    | .jstr _ => .err "unknown column index"
    | .jnum columnIx =>
      match c2 with
      | .jstr _ => .crash "index out of range"
      | .jnum descendingInt =>
        if columnIx < opts.columns.length then
          match (match descendingInt with
                 | 0 => some false
                 | 1 => some true
                 | _ => none : Option Bool) with
          | none => .err "unknown value for descending"
          | some descending =>
            match decodeOneValue opts columnIx c1 with
            | .ok value =>
              match decodeChunks opts rest with
              | .ok cvs =>
                .ok (⟨(opts.columns.getD columnIx defaultColumn).name,
                  value, descending⟩ :: cvs)
              | .err m => .err m
              | .crash m => .crash m
            | .err m => .err m
            | .crash m => .crash m
        else .err "unknown column index"
  | _ => .err "invalid length of cursor array"

/-- Go `(*QueryOptions).DecodeCursor` after the hex transport:
`json.Unmarshal` into `[]any` reads every number as a `float64` (the
`jRound` pass); the first array element (read without a bounds check: an
empty array is a run-time panic) is the block number, the rest is decoded
in chunks of three. -/
def decodeCursorItems (opts : QueryOptions) (encoded : List JItem) :
    DecRes Cursor :=
  match encoded.map jRound with
  | [] => .crash "index out of range"
  | first :: rest =>
    match first with
    | .jstr _ => .err "invalid block number"
    | .jnum blockNumber =>
      match decodeChunks opts rest with
      | .ok cvs => .ok ⟨blockNumber, cvs⟩
      | .err m => .err m
      | .crash m => .crash m

/-- Validity of a cursor value for its resolved column: byte columns carry
byte slices (naturals below 256), other columns carry numbers or strings. -/
def cvalMatchesColumn (col : Column) (v : CVal) : Bool :=
  match v with
  | .bytes bs => col.isBytes && bs.all (· < 256)
  | _ => !col.isBytes

/-- A cursor value that survives the `float64` read: numbers at most `2^53`
(strings and byte slices are unaffected by the rounding). -/
def cvalSmall : CVal → Bool
  | .num n => decide (n ≤ 2 ^ 53)
  | .str _ => true
  | .bytes _ => true

theorem jRound_jsonOfCVal (v : CVal) (h : cvalSmall v = true) :
    jRound (jsonOfCVal v) = jsonOfCVal v := by
  cases v with
  | num n =>
    simp only [cvalSmall, decide_eq_true_eq] at h
    simp [jsonOfCVal, jRound, floatOfNat_small n h]
  | str s => rfl
  | bytes bs => rfl

theorem decodeChunks_encodeCVs (opts : QueryOptions)
    (hcols : opts.columns.length ≤ 2 ^ 53)
    (cvs : List CursorValue)
    (hmatch : ∀ c ∈ cvs, ∀ ix, GetColumnIndex opts c.columnName = .ok ix →
      cvalMatchesColumn (opts.columns.getD ix defaultColumn) c.value = true)
    (hsmall : ∀ c ∈ cvs, cvalSmall c.value = true)
    (triples : List JItem) (henc : encodeCVs opts cvs = .ok triples) :
    decodeChunks opts (triples.map jRound) = .ok cvs := by
  induction cvs generalizing triples with
  | nil =>
    simp only [encodeCVs, Except.ok.injEq] at henc
    cases henc
    rfl
  | cons c rest ih =>
    obtain ⟨cn, v, d⟩ := c
    simp only [encodeCVs] at henc
    cases hix : GetColumnIndex opts (CursorValue.mk cn v d).columnName with
    | error m => rw [hix] at henc; simp at henc
    | ok columnIx =>
      rw [hix] at henc
      cases hrest : encodeCVs opts rest with
      | error m => rw [hrest] at henc; simp at henc
      | ok rs =>
        rw [hrest] at henc
        simp only [Except.ok.injEq] at henc
        cases henc
        obtain ⟨hlt, hname⟩ :=
          GetColumnIndex_ok opts (CursorValue.mk cn v d).columnName columnIx hix
        have hm := hmatch (CursorValue.mk cn v d) (by simp) columnIx hix
        have ihr : decodeChunks opts (rs.map jRound) = .ok rest :=
          ih (fun c' hc' => hmatch c' (by simp [hc']))
            (fun c' hc' => hsmall c' (by simp [hc'])) rs hrest
        have hjv : jRound (jsonOfCVal v) = jsonOfCVal v :=
          jRound_jsonOfCVal v (hsmall (CursorValue.mk cn v d) (by simp))
        have hcx : floatOfNat columnIx = columnIx :=
          floatOfNat_small columnIx (Nat.le_trans (Nat.le_of_lt hlt) hcols)
        have hflag : jRound (JItem.jnum (if d then 1 else 0)) =
            .jnum (if d then 1 else 0) := by
          cases d <;> rfl
        simp only [List.map_cons]
        rw [hjv, hflag]
        simp only [jRound]
        rw [hcx]
        have hval : decodeOneValue opts columnIx (jsonOfCVal v) = .ok v := by
          unfold decodeOneValue
          cases hv : v with
          | num n =>
            rw [hv] at hm
            simp only [cvalMatchesColumn] at hm
            simp [jsonOfCVal, cvalOfJItem, (by simpa using hm : _ = false)]
          | str s =>
            rw [hv] at hm
            simp only [cvalMatchesColumn] at hm
            simp [jsonOfCVal, cvalOfJItem, (by simpa using hm : _ = false)]
          | bytes bs =>
            rw [hv] at hm
            simp only [cvalMatchesColumn, Bool.and_eq_true] at hm
            have hb : ∀ x ∈ bs, x < 256 := by
              intro x hx
              have := hm.2
              rw [List.all_eq_true] at this
              simpa using this x hx
            have hdec : b64decode (b64encode bs) = some bs := by
              unfold b64decode b64encode
              exact b64decode_encode bs hb
            simp only [jsonOfCVal]
            rw [hm.1]
            simp [hdec]
        cases hd : d with
        | false =>
          cases hd
          simp only [decodeChunks, hlt, if_true]
          rw [hval, ihr]
          simpa using hname
        | true =>
          cases hd
          simp only [decodeChunks, hlt, if_true]
          rw [hval, ihr]
          simpa using hname

/-- Resolved columns of the witness options: `entity_key` (bytes) and
`from_block`, sorted by name. -/
def optsW : QueryOptions :=
  ⟨0, [⟨"entity_key", "e.entity_key", true⟩, ⟨"from_block", "e.from_block", false⟩],
   [], [], []⟩

/-- A concrete cursor naming the two order-by columns, with a byte-valued
`entity_key` (spec scenario 8). -/
def cursorW : Cursor :=
  ⟨10, [⟨"from_block", .num 42, false⟩, ⟨"entity_key", .bytes [0xDE, 0xAD], false⟩]⟩

/-- Extract the item list from an encoding result (fallback `[]`). -/
def itemsOfExc : Except String (List JItem) → List JItem
  | .ok l => l
  | .error _ => []

/-- C6. The claim as stated is false on the code: the block number `2^53 + 1`
is a valid cursor value (a Go `uint64`), and `EncodeCursor` marshals it
exactly, but `DecodeCursor` reads it back through `json.Unmarshal`'s
`float64` (src/unnamed/part_000 lines 65-69), which rounds it (ties to even)
to `2^53`; the decode succeeds with no error and returns a different
cursor. -/
theorem c6_cursor_roundtrip_counterexample :
    encodeCursorItems optsW ⟨2 ^ 53 + 1, []⟩ = .ok [.jnum (2 ^ 53 + 1)] ∧
    decodeCursorItems optsW
        (itemsOfExc (encodeCursorItems optsW ⟨2 ^ 53 + 1, []⟩)) =
      .ok ⟨2 ^ 53, []⟩ ∧
    (⟨2 ^ 53, []⟩ : Cursor) ≠ ⟨2 ^ 53 + 1, []⟩ :=
  ⟨rfl, rfl, by decide⟩

/-- C6 (amended). Cursor round-trip below the `float64` precision limit: for
every `QueryOptions` with at most `2^53` columns and every cursor whose
block number and numeric values are at most `2^53` and whose values are
valid for their resolved columns (the column name resolves and byte columns
carry byte slices, exactly as when the cursor is built from the order-by
columns), decoding the encoding returns the same cursor, with byte columns
restored to the original raw bytes through the base64 round trip. (Above
`2^53` the round trip fails: `json.Unmarshal` decodes numbers as `float64`,
as the counterexample shows.) -/
theorem c6_cursor_roundtrip_amended (opts : QueryOptions) (cursor : Cursor)
    (items : List JItem)
    (hmatch : ∀ c ∈ cursor.columnValues, ∀ ix,
      GetColumnIndex opts c.columnName = .ok ix →
      cvalMatchesColumn (opts.columns.getD ix defaultColumn) c.value = true)
    (hblock : cursor.blockNumber ≤ 2 ^ 53)
    (hvals : ∀ c ∈ cursor.columnValues, cvalSmall c.value = true)
    (hcols : opts.columns.length ≤ 2 ^ 53)
    (henc : encodeCursorItems opts cursor = .ok items) :
    decodeCursorItems opts items = .ok cursor := by
  unfold encodeCursorItems at henc
  cases htr : encodeCVs opts cursor.columnValues with
  | error m => rw [htr] at henc; simp at henc
  | ok triples =>
    rw [htr] at henc
    simp only [Except.ok.injEq] at henc
    cases henc
    have hdec :=
      decodeChunks_encodeCVs opts hcols cursor.columnValues hmatch hvals triples htr
    simp only [decodeCursorItems, List.map_cons, jRound,
      floatOfNat_small _ hblock, hdec]

/-- C6 witness: the amended round trip at the concrete options and cursor
above; the encoding is the spec's scenario-8 array
`[10, 1, 42, 0, 0, "3q0=", 0]` and decoding returns the cursor unchanged. -/
theorem c6_cursor_roundtrip_witness :
    encodeCursorItems optsW cursorW =
      .ok [.jnum 10, .jnum 1, .jnum 42, .jnum 0, .jnum 0, .jstr "3q0=", .jnum 0] ∧
    decodeCursorItems optsW (itemsOfExc (encodeCursorItems optsW cursorW)) =
      .ok cursorW := by
  constructor
  · rfl
  · refine c6_cursor_roundtrip_amended optsW cursorW
      (itemsOfExc (encodeCursorItems optsW cursorW)) ?_ (by decide) (by decide)
      (by decide) (by rfl)
    intro c hc ix hix
    fin_cases hc
    · rw [show GetColumnIndex optsW "from_block" = (.ok 1 : Except String Nat)
        from rfl] at hix
      cases hix
      rfl
    · rw [show GetColumnIndex optsW "entity_key" = (.ok 0 : Except String Nat)
        from rfl] at hix
      cases hix
      rfl

/-- C7. The decoder crashes instead of returning an error on two malformed
cursors: the empty JSON array `[]` (Go reads `encoded[0]` without a bounds
check) and a triple whose descending element is not a number (the intended
error return reads `c[3]` of a length-three chunk). Both are run-time
panics, contradicting the fail-fast error policy the claim states. -/
theorem c7_decode_crashes :
    decodeCursorItems optsW [] = .crash "index out of range" ∧
    decodeCursorItems optsW [.jnum 10, .jnum 0, .jnum 5, .jstr "x"] =
      .crash "index out of range" :=
  ⟨rfl, rfl⟩

/-! ### Query builder and SQL emission (src/unnamed/part_001 and
src/query/tables_method.go, the CTE/set-algebra strategy) -/

/-- Go `QueryResultCountLimit` (src/query/query_options.go). -/
def QueryResultCountLimit : Nat := 200

/-- Go `SelectQuery`: the SQL text with its positional arguments. -/
structure SelectQuery where
  query : String
  args : List CVal
deriving DecidableEq

/-- Go `QueryBuilder` (src/unnamed/part_001): the `strings.Builder` contents,
the argument list and counters, the two state-machine flags, and the
options. The `sqlDialect` field is never read and is omitted. -/
structure QueryBuilder where
  query : String
  args : List CVal
  argsCount : Nat
  tableCounter : Nat
  needsComma : Bool
  needsWhere : Bool
  options : QueryOptions

/-- Go `(*QueryBuilder).pushArgument` (src/unnamed/part_001): append the
argument and return the 1-based `$N` placeholder. -/
def pushArgument (b : QueryBuilder) (arg : CVal) : QueryBuilder × String :=
  ({ b with args := b.args ++ [arg], argsCount := b.argsCount + 1 },
   "$" ++ toString (b.argsCount + 1))

/-- Go `(*QueryBuilder).nextTableName`. -/
def nextTableName (b : QueryBuilder) : QueryBuilder × String :=
  ({ b with tableCounter := b.tableCounter + 1 },
   "table_" ++ toString (b.tableCounter + 1))

/-- Go `(*QueryBuilder).writeComma`. -/
def writeComma (b : QueryBuilder) : QueryBuilder :=
  if b.needsComma then { b with query := b.query ++ ", " }
  else { b with needsComma := true }

/-- Go `(Column).selector`. -/
def Column.selector (c : Column) : String := c.qualifiedName ++ " AS " ++ c.name

/-- Go `(*QueryOptions).columnString`. -/
def columnString (opts : QueryOptions) : String :=
  if opts.columns = [] then "1"
  else String.intercalate ", " (opts.columns.map Column.selector)

/-- The argument pre-allocation loop of Go `addPaginationArguments`: push
every cursor value and collect the placeholders. -/
def pushArgs (b : QueryBuilder) : List CursorValue → QueryBuilder × List String
  | [] => (b, [])
  | c :: rest =>
    let (b1, s) := pushArgument b c.value
    let (b2, ss) := pushArgs b1 rest
    (b2, s :: ss)

/-- The inner `j` loop of Go `addPaginationArguments` building one
disjunct: elements before the countdown reaches zero contribute equalities,
the element at zero contributes the strict comparison and the loop breaks. -/
def subCondLoop (opts : QueryOptions) :
    List (CursorValue × String) → Nat → Except String (List String)
  | [], _ => .ok []
  | (v, a) :: rest, i =>
    match GetColumnIndex opts v.columnName with
    | .error m => .error ("error getting column index: " ++ m)
    | .ok columnIx =>
      let column := opts.columns.getD columnIx defaultColumn
      match i with
      | 0 =>
        let operator := if v.descending then "<" else ">"
        .ok [column.qualifiedName ++ " " ++ operator ++ " " ++ a]
      | i' + 1 =>
        match subCondLoop opts rest i' with
        | .ok parts => .ok ((column.qualifiedName ++ " = " ++ a) :: parts)
        | .error m => .error m

/-- The outer `i` loop of Go `addPaginationArguments` over the disjunct
indices. -/
def pagCondLoop (opts : QueryOptions) (pairs : List (CursorValue × String)) :
    List Nat → Except String (List String)
  | [] => .ok []
  | i :: is =>
    match subCondLoop opts pairs i with
    | .error m => .error m
    | .ok parts =>
      match pagCondLoop opts pairs is with
      | .error m => .error m
      | .ok rest => .ok (("(" ++ String.intercalate " AND " parts ++ ")") :: rest)

/-- Go `(*QueryBuilder).addPaginationArguments` (src/unnamed/part_001 lines
51-111): when a cursor is present, push each cursor value once, build the
keyset disjunction reusing the placeholders, and append it to the query via
the WHERE/AND state machine; when the cursor is absent, nothing is
emitted. -/
def addPaginationArguments (b : QueryBuilder) : Except String QueryBuilder :=
  match b.options.cursor with
  | [] => .ok b
  | cs =>
    let (b1, args) := pushArgs b cs
    match pagCondLoop b1.options (cs.zip args) (List.range cs.length) with
    | .error m => .error m
    | .ok conds =>
      let paginationCondition := String.intercalate " OR " conds
      let b2 :=
        if b1.needsWhere then
          { b1 with query := b1.query ++ " WHERE ", needsWhere := false }
        else { b1 with query := b1.query ++ " AND " }
      .ok { b2 with query := b2.query ++ "(" ++ paginationCondition ++ ")" }

/-- Go `(*QueryBuilder).createLeafQuery` (src/query/tables_method.go): wrap
a leaf query as the next named CTE. -/
def createLeafQuery (b : QueryBuilder) (query : String) :
    QueryBuilder × String :=
  let (b1, tableName) := nextTableName b
  let b2 := writeComma b1
  ({ b2 with query := b2.query ++ tableName ++ " AS (" ++ query ++ ")" },
   tableName)

/-- Go `(*QueryBuilder).createAnnotationQuery`: a leaf CTE over the
attribute table of the given kind, scoped to the attribute rows live at
`atBlock`. -/
def createAnnotationQuery (b : QueryBuilder) (attributeType whereClause : String) :
    QueryBuilder × String :=
  let tableName :=
    if attributeType = "numeric" then "numeric_attributes" else "string_attributes"
  let (b1, blockArg) := pushArgument b (.num b.options.atBlock)
  createLeafQuery b1
    ("SELECT a.entity_key, a.from_block FROM " ++ tableName ++
     " AS a WHERE " ++ whereClause ++ " AND " ++ blockArg ++
     " BETWEEN a.from_block AND a.to_block - 1")

/-- Go `(*Glob).Evaluate` (tables strategy). -/
def globEvaluate (e : Glob) (b : QueryBuilder) : QueryBuilder × String :=
  let (b1, varArg) := pushArgument b (.str e.var)
  let (b2, valArg) := pushArgument b1 (.str e.value)
  let op := if e.isNot then "NOT GLOB" else "GLOB"
  createAnnotationQuery b2 "string"
    ("a.key = " ++ varArg ++ " AND a.value " ++ op ++ " " ++ valArg)

/-- The shared body of the four ordered-comparison `Evaluate` methods and of
`(*Equality).Evaluate`: the attribute kind and value placeholder follow the
value's variant. -/
def comparisonEvaluate (varName : String) (value : Value) (op : String)
    (b : QueryBuilder) : QueryBuilder × String :=
  let (b1, varArg) := pushArgument b (.str varName)
  let (attrType, b2, valArg) :=
    match value with
    | .str s =>
      let (b2, valArg) := pushArgument b1 (.str s)
      ("string", b2, valArg)
    | .num n =>
      let (b2, valArg) := pushArgument b1 (.num n)
      ("numeric", b2, valArg)
  createAnnotationQuery b2 attrType
    ("a.key = " ++ varArg ++ " AND a.value " ++ op ++ " " ++ valArg)

/-- Push a list of values, collecting the placeholders (the loops of Go
`(*Inclusion).Evaluate`). -/
def pushValues (b : QueryBuilder) : List CVal → QueryBuilder × List String
  | [] => (b, [])
  | v :: rest =>
    let (b1, s) := pushArgument b v
    let (b2, ss) := pushValues b1 rest
    (b2, s :: ss)

/-- Go `(*Inclusion).Evaluate` (tables strategy): string values are pushed
(lower-cased for the meta attributes), numeric values otherwise; the key
placeholder is pushed after the value placeholders. -/
def inclusionEvaluate (e : Inclusion) (b : QueryBuilder) :
    QueryBuilder × String :=
  let (attrType, b1, values) :=
    match e.values with
    | .strs (s :: ss) =>
      let pushed :=
        (s :: ss).map fun value =>
          if e.var == OwnerAttributeKey || e.var == CreatorAttributeKey ||
              e.var == KeyAttributeKey then
            CVal.str (strLower value)
          else CVal.str value
      let (b1, vs) := pushValues b pushed
      ("string", b1, vs)
    | .strs [] =>
      -- Go tests `len(e.Values.Strings) > 0`; with no strings it pushes the
      -- (empty) numeric list.
      ("numeric", b, ([] : List String))
    | .nums l =>
      let (b1, vs) := pushValues b (l.map CVal.num)
      ("numeric", b1, vs)
  let paramStr := String.intercalate ", " values
  let condition :=
    if e.isNot then "a.value NOT IN (" ++ paramStr ++ ")"
    else "a.value IN (" ++ paramStr ++ ")"
  let (b2, keyArg) := pushArgument b1 (.str e.var)
  createAnnotationQuery b2 attrType ("a.key = " ++ keyArg ++ " AND " ++ condition)

/-- Go `(TablesEvaluator).EvaluateTerm`: dispatch on the populated leaf (the
trailing panic is unreachable: the inductive has exactly the seven leaves). -/
def evaluateTerm (t : ASTTerm) (b : QueryBuilder) : QueryBuilder × String :=
  match t with
  | .lessThan e => comparisonEvaluate e.var e.value "<" b
  | .lessOrEqualThan e => comparisonEvaluate e.var e.value "<=" b
  | .greaterThan e => comparisonEvaluate e.var e.value ">" b
  | .greaterOrEqualThan e => comparisonEvaluate e.var e.value ">=" b
  | .glob e => globEvaluate e b
  | .assign e => comparisonEvaluate e.var e.value (if e.isNot then "!=" else "=") b
  | .inclusion e => inclusionEvaluate e b

/-- The `INTERSECT` fold of Go `(TablesEvaluator).EvaluateAnd`. -/
def evalAndLoop (leftTable : String) (b : QueryBuilder) :
    List ASTTerm → QueryBuilder × String
  | [] => (b, leftTable)
  | t :: rest =>
    let (b1, rightTable) := evaluateTerm t b
    let (b2, tableName) := nextTableName b1
    let b3 := writeComma b2
    let b4 := { b3 with query := b3.query ++ tableName ++ " AS (" ++
      "SELECT * FROM " ++ leftTable ++ " INTERSECT " ++ "SELECT * FROM " ++
      rightTable ++ ")" }
    evalAndLoop tableName b4 rest

/-- Go `(TablesEvaluator).EvaluateAnd`: reading `expr.Terms[0]` of an empty
conjunction is a run-time panic (unreachable for normaliser output). -/
def evaluateAnd (a : ASTAnd) (b : QueryBuilder) :
    DecRes (QueryBuilder × String) :=
  match a.terms with
  | [] => .crash "index out of range"
  | t :: rest =>
    let (b1, leftTable) := evaluateTerm t b
    .ok (evalAndLoop leftTable b1 rest)

/-- The `UNION` fold of Go `(TablesEvaluator).EvaluateOr`. -/
def evalOrLoop (leftTable : String) (b : QueryBuilder) :
    List ASTAnd → DecRes (QueryBuilder × String)
  | [] => .ok (b, leftTable)
  | r :: rest =>
    match evaluateAnd r b with
    | .ok (b1, rightTable) =>
      let (b2, tableName) := nextTableName b1
      let b3 := writeComma b2
      let b4 := { b3 with query := b3.query ++ tableName ++ " AS (" ++
        "SELECT * FROM " ++ leftTable ++ " UNION " ++ "SELECT * FROM " ++
        rightTable ++ ")" }
      evalOrLoop tableName b4 rest
    | .err m => .err m
    | .crash m => .crash m

/-- Go `(TablesEvaluator).EvaluateOr`. -/
def evaluateOr (o : ASTOr) (b : QueryBuilder) : DecRes (QueryBuilder × String) :=
  match o.terms with
  | [] => .crash "index out of range"
  | a :: rest =>
    match evaluateAnd a b with
    | .ok (b1, leftTable) => evalOrLoop leftTable b1 rest
    | .err m => .err m
    | .crash m => .crash m

/-- Go `(TablesEvaluator).EvaluateExpr`: open the `WITH` clause, then emit
the disjunction. -/
def evaluateExpr (x : ASTExpr) (b : QueryBuilder) :
    DecRes (QueryBuilder × String) :=
  evaluateOr x.or { b with query := b.query ++ "WITH " }

/-- The order-by annotation loop of Go `(TablesEvaluator).EvaluateAST`: each
annotation contributes a `LEFT JOIN` on its attribute table; an unknown type
aborts with an error. -/
def orderByAnnotLoop (b : QueryBuilder) :
    List OrderByAnnot → Nat → Except String QueryBuilder
  | [], _ => .ok b
  | o :: rest, i =>
    let tableName? : Option String :=
      if o.typ = "string" then some "string_attributes"
      else if o.typ = "numeric" then some "numeric_attributes"
      else none
    match tableName? with
    | none =>
      .error ("a type of either 'string' or 'numeric' needs to be provided for the annotation '"
        ++ o.name ++ "'")
    | some tableName =>
      let sortingTable := "arkiv_annotation_sorting" ++ toString i
      let (b1, keyPlaceholder) := pushArgument b (.str o.name)
      let b2 := { b1 with query := b1.query ++
        " LEFT JOIN " ++ tableName ++ " AS " ++ sortingTable ++
        " ON " ++ sortingTable ++ ".entity_key = e.entity_key" ++
        " AND " ++ sortingTable ++ ".from_block = e.from_block" ++
        " AND " ++ sortingTable ++ ".key = " ++ keyPlaceholder }
      orderByAnnotLoop b2 rest (i + 1)

/-- The `ORDER BY` column list of Go `(TablesEvaluator).EvaluateAST`. -/
def orderByString (opts : QueryOptions) : String :=
  String.intercalate ", "
    (opts.orderBy.map fun o =>
      o.column.name ++ (if o.descending then " DESC" else ""))

/-- Go `(TablesEvaluator).EvaluateAST` (the CTE/set-algebra strategy): the
`Empty` AST reads `payloads` directly with no `WITH` clause; otherwise the
final CTE is joined back to `payloads`; then come the order-by joins, the
keyset pagination block, the `atBlock` liveness predicate via the
WHERE/AND state machine, the `ORDER BY` list and the `LIMIT`. -/
def EvaluateAST (ast : AST) (options : QueryOptions) : DecRes SelectQuery :=
  let builder : QueryBuilder :=
    { query := "", args := [], argsCount := 0, tableCounter := 0,
      needsComma := false, needsWhere := true, options := options }
  let afterFrom : DecRes QueryBuilder :=
    match ast.expr with
    | some x =>
      match evaluateExpr x builder with
      | .ok (b1, tbl) =>
        .ok { b1 with query := b1.query ++ " SELECT " ++
          columnString builder.options ++ " FROM " ++ tbl ++
          " AS keys INNER JOIN payloads AS e INDEXED BY payloads_entity_key_index ON keys.entity_key = e.entity_key AND keys.from_block = e.from_block" }
      | .err m => .err m
      | .crash m => .crash m
    | none =>
      .ok { builder with query := (builder.query ++ "SELECT " ++
        columnString builder.options ++ " FROM payloads AS e") }
  match afterFrom with
  | .ok b2 =>
    match orderByAnnotLoop b2 b2.options.orderByAnnots 0 with
    | .error m => .err m
    | .ok b3 =>
      match addPaginationArguments b3 with
      | .error m => .err ("error adding the pagination condition: " ++ m)
      | .ok b4 =>
        let b5 :=
          if b4.needsWhere then
            { b4 with query := b4.query ++ " WHERE ", needsWhere := false }
          else { b4 with query := b4.query ++ " AND " }
        let (b6, blockArg) := pushArgument b5 (.num b5.options.atBlock)
        let b7 := { b6 with query := (b6.query ++ blockArg ++
          " BETWEEN e.from_block AND e.to_block - 1") }
        let b8 := { b7 with query := (b7.query ++ " ORDER BY " ++
          orderByString b7.options ++ " LIMIT " ++
          toString QueryResultCountLimit) }
        .ok { query := b8.query, args := b8.args }
  | .err m => .err m
  | .crash m => .crash m

/-- The `$N` placeholders produced by `n` consecutive `pushArgument` calls
starting from argument counter `start`. -/
def argPlaceholders (start n : Nat) : List String :=
  (List.range n).map fun k => "$" ++ toString (start + k + 1)

theorem argPlaceholders_succ (start n : Nat) :
    argPlaceholders start (n + 1) =
      ("$" ++ toString (start + 1)) :: argPlaceholders (start + 1) n := by
  unfold argPlaceholders
  rw [List.range_succ_eq_map, List.map_cons, List.map_map]
  have h0 : start + 0 + 1 = start + 1 := by omega
  rw [h0]
  congr 1
  apply List.map_congr_left
  intro k hk
  simp only [Function.comp_apply]
  have hadd : start + (k + 1) + 1 = start + 1 + k + 1 := by omega
  rw [hadd]

theorem pushArgs_spec (cs : List CursorValue) : ∀ b : QueryBuilder,
    pushArgs b cs =
      ({ b with
          args := (b.args ++ cs.map CursorValue.value)
          argsCount := (b.argsCount + cs.length) },
       argPlaceholders b.argsCount cs.length) := by
  induction cs with
  | nil =>
    intro b
    simp [pushArgs, argPlaceholders]
  | cons c rest ih =>
    intro b
    simp only [pushArgs, pushArgument, ih, List.map_cons, List.length_cons,
      argPlaceholders_succ]
    have hcnt : b.argsCount + 1 + rest.length = b.argsCount + (rest.length + 1) := by
      omega
    rw [hcnt]
    congr 1
    simp

/-- The per-cursor-value column resolution of `addPaginationArguments`: the
qualified name of the column found by `GetColumnIndex`, the direction, and
the value. -/
def resolveCursor (opts : QueryOptions) :
    List CursorValue → Except String (List (String × Bool × CVal))
  | [] => .ok []
  | c :: rest =>
    match GetColumnIndex opts c.columnName with
    | .error m => .error m
    | .ok ix =>
      match resolveCursor opts rest with
      | .error m => .error m
      | .ok rs =>
        .ok (((opts.columns.getD ix defaultColumn).qualifiedName,
          c.descending, c.value) :: rs)

theorem resolveCursor_length (opts : QueryOptions) :
    ∀ cs rs, resolveCursor opts cs = .ok rs → rs.length = cs.length := by
  intro cs
  induction cs with
  | nil =>
    intro rs h
    simp only [resolveCursor, Except.ok.injEq] at h
    cases h
    rfl
  | cons c rest ih =>
    intro rs h
    simp only [resolveCursor] at h
    cases hix : GetColumnIndex opts c.columnName with
    | error m => rw [hix] at h; simp at h
    | ok ix =>
      rw [hix] at h
      cases hr : resolveCursor opts rest with
      | error m => rw [hr] at h; simp at h
      | ok rs' =>
        rw [hr] at h
        simp only [Except.ok.injEq] at h
        cases h
        simp [ih rs' hr]

/-- One disjunct of the keyset condition, rendered from the resolved
triples and the placeholders: equalities on the prefix, the strict
comparison on the element the countdown stops at. -/
def renderSub : List ((String × Bool × CVal) × String) → Nat → List String
  | [], _ => []
  | ((q, d, _), a) :: _, 0 =>
    [q ++ " " ++ (if d then "<" else ">") ++ " " ++ a]
  | ((q, _, _), a) :: rest, i + 1 => (q ++ " = " ++ a) :: renderSub rest i

/-- All disjuncts of the keyset condition. -/
def renderConds (pairs : List ((String × Bool × CVal) × String)) : List String :=
  (List.range pairs.length).map fun i =>
    "(" ++ String.intercalate " AND " (renderSub pairs i) ++ ")"

theorem subCondLoop_render (opts : QueryOptions) :
    ∀ (cs : List CursorValue) rs (args : List String) (i : Nat),
      resolveCursor opts cs = .ok rs →
      subCondLoop opts (cs.zip args) i = .ok (renderSub (rs.zip args) i) := by
  intro cs
  induction cs with
  | nil =>
    intro rs args i h
    simp only [resolveCursor, Except.ok.injEq] at h
    cases h
    simp [subCondLoop, renderSub]
  | cons c rest ih =>
    intro rs args i h
    simp only [resolveCursor] at h
    cases hix : GetColumnIndex opts c.columnName with
    | error m => rw [hix] at h; simp at h
    | ok ix =>
      rw [hix] at h
      cases hr : resolveCursor opts rest with
      | error m => rw [hr] at h; simp at h
      | ok rs' =>
        rw [hr] at h
        simp only [Except.ok.injEq] at h
        cases h
        cases args with
        | nil => simp [subCondLoop, renderSub]
        | cons a args' =>
          cases i with
          | zero => simp [subCondLoop, renderSub, hix]
          | succ i' =>
            have hsub := ih rs' args' i' hr
            rw [List.zip] at hsub
            simp [subCondLoop, renderSub, hix, List.zip, hsub]

theorem pagCondLoop_render (opts : QueryOptions) (cs : List CursorValue)
    (rs : List (String × Bool × CVal)) (args : List String)
    (hres : resolveCursor opts cs = .ok rs) :
    ∀ is : List Nat,
      pagCondLoop opts (cs.zip args) is =
        .ok (is.map fun i =>
          "(" ++ String.intercalate " AND " (renderSub (rs.zip args) i) ++ ")") := by
  intro is
  induction is with
  | nil => rfl
  | cons i rest ih =>
    simp [pagCondLoop, subCondLoop_render opts cs rs args i hres, ih]

/-- Strict lexicographic succession of the row (read through `ρ` on
qualified column names) over the cursor tuple (read through `ν`), in the
order induced by the per-column directions: the row strictly succeeds when
at the first differing position it is below the cursor value for a
descending column and above it for an ascending one. -/
def lexSucc {V : Type} [LinearOrder V] (ρ : String → V) (ν : CVal → V) :
    List (String × Bool × CVal) → Bool
  | [] => false
  | (q, d, v) :: rest =>
    (if d then decide (ρ q < ν v) else decide (ν v < ρ q)) ||
    (decide (ρ q = ν v) && lexSucc ρ ν rest)

/-- Truth of the disjunct `renderSub rs i` under the row/value
interpretation: SQL `col = $k` is `ρ q = ν v`, `col < $k` is `ρ q < ν v`,
`col > $k` is `ν v < ρ q`. -/
def evalSubCond {V : Type} [LinearOrder V] (ρ : String → V) (ν : CVal → V) :
    List (String × Bool × CVal) → Nat → Bool
  | [], _ => true
  | (q, d, v) :: _, 0 => if d then decide (ρ q < ν v) else decide (ν v < ρ q)
  | (q, _, v) :: rest, i + 1 => decide (ρ q = ν v) && evalSubCond ρ ν rest i

/-- Truth of the whole emitted keyset disjunction. -/
def evalKeyset {V : Type} [LinearOrder V] (ρ : String → V) (ν : CVal → V)
    (rs : List (String × Bool × CVal)) : Bool :=
  (List.range rs.length).any fun i => evalSubCond ρ ν rs i

theorem any_const_and {α : Type} (l : List α) (p : α → Bool) (b : Bool) :
    (l.any fun x => b && p x) = (b && l.any p) := by
  cases b <;> simp

theorem evalKeyset_lexSucc {V : Type} [LinearOrder V] (ρ : String → V)
    (ν : CVal → V) (rs : List (String × Bool × CVal)) :
    evalKeyset ρ ν rs = lexSucc ρ ν rs := by
  induction rs with
  | nil => rfl
  | cons t rest ih =>
    obtain ⟨q, d, v⟩ := t
    unfold evalKeyset
    rw [List.length_cons, List.range_succ_eq_map, List.any_cons,
      any_map_general]
    have h1 : ∀ i, evalSubCond ρ ν ((q, d, v) :: rest) (i + 1) =
        (decide (ρ q = ν v) && evalSubCond ρ ν rest i) := fun i => rfl
    simp only [h1]
    rw [any_const_and]
    unfold evalKeyset at ih
    rw [ih]
    rfl

/-- Appending the empty string on the left is the identity. -/
theorem str_empty_append (s : String) : "" ++ s = s := rfl

/-- C8. Keyset pagination: with no cursor nothing is emitted and the builder
is returned unchanged; with a cursor, every cursor value is pushed as a
parameter exactly once (in order, reused across the disjuncts), and the
emitted text appended through the WHERE/AND state machine is the
parenthesised disjunction whose `i`-th disjunct equates the first `i`
resolved columns with their placeholders and compares the `(i+1)`-st
strictly (`<` for descending, `>` otherwise); and that disjunction is true
under a row/value interpretation into any linear order exactly when the row
tuple strictly succeeds the cursor tuple in the lexicographic order induced
by the per-column directions. -/
theorem c8_keyset_pagination :
    (∀ b : QueryBuilder, b.options.cursor = [] →
      addPaginationArguments b = .ok b) ∧
    (∀ (b b' : QueryBuilder) (rs : List (String × Bool × CVal)),
      resolveCursor b.options b.options.cursor = .ok rs →
      b.options.cursor ≠ [] →
      addPaginationArguments b = .ok b' →
      b'.args = b.args ++ b.options.cursor.map CursorValue.value ∧
      b'.query = b.query ++ (if b.needsWhere then " WHERE " else " AND ") ++
        "(" ++ String.intercalate " OR "
          (renderConds (rs.zip
            (argPlaceholders b.argsCount b.options.cursor.length))) ++ ")" ∧
      b'.needsWhere = false) ∧
    (∀ (V : Type) [LinearOrder V] (ρ : String → V) (ν : CVal → V)
      (rs : List (String × Bool × CVal)),
      evalKeyset ρ ν rs = lexSucc ρ ν rs) := by
  refine ⟨?_, ?_, ?_⟩
  · intro b h
    unfold addPaginationArguments
    rw [h]
  · intro b b' rs hres hne hadd
    unfold addPaginationArguments at hadd
    cases hcs : b.options.cursor with
    | nil => exact absurd hcs hne
    | cons c cs' =>
      rw [hcs] at hadd hres
      simp only [] at hadd
      rw [pushArgs_spec] at hadd
      dsimp only at hadd
      rw [pagCondLoop_render b.options (c :: cs') rs
        (argPlaceholders b.argsCount (c :: cs').length) hres] at hadd
      have hlen : (rs.zip (argPlaceholders b.argsCount (c :: cs').length)).length
          = (c :: cs').length := by
        rw [List.length_zip, resolveCursor_length b.options _ rs hres]
        simp [argPlaceholders]
      rw [show renderConds (rs.zip (argPlaceholders b.argsCount (c :: cs').length))
          = (List.range (c :: cs').length).map (fun i =>
              "(" ++ String.intercalate " AND "
                (renderSub (rs.zip (argPlaceholders b.argsCount (c :: cs').length)) i) ++ ")")
        from by rw [renderConds, hlen]]
      cases hnw : b.needsWhere with
      | true =>
        rw [hnw] at hadd
        simp only [if_true] at hadd
        cases hadd
        refine ⟨rfl, ?_, rfl⟩
        simp
      | false =>
        rw [hnw] at hadd
        simp only [Bool.false_eq_true, if_false] at hadd
        cases hadd
        refine ⟨rfl, ?_, rfl⟩
        simp
  · intro V _ ρ ν rs
    exact evalKeyset_lexSucc ρ ν rs

/-- Options for the C8 witness: the two resolved columns and a two-entry
cursor with mixed directions. -/
def optsPag : QueryOptions :=
  ⟨0, [⟨"entity_key", "e.entity_key", true⟩, ⟨"from_block", "e.from_block", false⟩],
   [], [],
   [⟨"from_block", .num 5, false⟩, ⟨"entity_key", .str "k", true⟩]⟩

/-- Builder for the C8 witness. -/
def bPag : QueryBuilder :=
  ⟨"SELECT 1 FROM payloads AS e", [], 0, 0, false, true, optsPag⟩

/-- The resolved triples of `optsPag`'s cursor. -/
def rsPag : List (String × Bool × CVal) :=
  [("e.from_block", false, .num 5), ("e.entity_key", true, .str "k")]

/-- Extract the builder from a pagination result (fallback the input). -/
def excQB (r : Except String QueryBuilder) (d : QueryBuilder) : QueryBuilder :=
  match r with
  | .ok b => b
  | .error _ => d

/-- C8 witness: the theorem applied to the concrete builder with a two-entry
mixed-direction cursor, and the semantic equivalence instantiated at the
integers. -/
theorem c8_keyset_pagination_witness :
    addPaginationArguments bPag = .ok (excQB (addPaginationArguments bPag) bPag) ∧
    (excQB (addPaginationArguments bPag) bPag).args =
      bPag.args ++ bPag.options.cursor.map CursorValue.value ∧
    (excQB (addPaginationArguments bPag) bPag).needsWhere = false ∧
    evalKeyset (fun _ => (7 : Int)) (fun _ => (3 : Int)) rsPag =
      lexSucc (fun _ => (7 : Int)) (fun _ => (3 : Int)) rsPag :=
  ⟨rfl,
   (c8_keyset_pagination.2.1 bPag _ rsPag rfl (by decide) rfl).1,
   (c8_keyset_pagination.2.1 bPag _ rsPag rfl (by decide) rfl).2.2,
   c8_keyset_pagination.2.2 Int (fun _ => (7 : Int)) (fun _ => (3 : Int)) rsPag⟩

/-- The fixed order-by tail the resolver appends (`from_block ASC`,
`entity_key ASC`; src/query/query_options.go). -/
def stdOrderByTail : List OrderBy :=
  [⟨⟨"from_block", "e.from_block", false⟩, false⟩,
   ⟨⟨"entity_key", "e.entity_key", true⟩, false⟩]

/-- Resolver output for the counterexample/witness of C9: `$all`, no include
flags beyond the defaults, no user order-by, no cursor, `atBlock = 7`. -/
def optsC9 : QueryOptions :=
  ⟨7, [⟨"entity_key", "e.entity_key", true⟩, ⟨"from_block", "e.from_block", false⟩],
   stdOrderByTail, [], []⟩

/-- C9. The claim as stated is false on the code: for the `$all` (Empty)
AST with the resolved options above, the emitted SQL carries the `$1`
placeholder produced by `pushArgument` (src/unnamed/part_001: `$%d`), not
the claimed `?` of the spec's CTE dialect; everything else matches. -/
theorem c9_empty_sql_counterexample :
    EvaluateAST ⟨none⟩ optsC9 =
      .ok ⟨"SELECT e.entity_key AS entity_key, e.from_block AS from_block FROM payloads AS e WHERE $1 BETWEEN e.from_block AND e.to_block - 1 ORDER BY from_block, entity_key LIMIT 200",
        [.num 7]⟩ ∧
    "SELECT e.entity_key AS entity_key, e.from_block AS from_block FROM payloads AS e WHERE $1 BETWEEN e.from_block AND e.to_block - 1 ORDER BY from_block, entity_key LIMIT 200" ≠
      "SELECT " ++ columnString optsC9 ++
        " FROM payloads AS e WHERE ? BETWEEN e.from_block AND e.to_block - 1 ORDER BY from_block, entity_key LIMIT 200" :=
  ⟨rfl, by decide⟩

/-- C9 (amended). For the Empty AST with no order-by annotations, no cursor,
and the resolver's fixed order-by tail, the CTE-strategy emitter produces
exactly `SELECT <cols> FROM payloads AS e WHERE $1 BETWEEN e.from_block AND
e.to_block - 1 ORDER BY from_block, entity_key LIMIT 200` (single `$1`
placeholder, no `WITH` clause) with argument list `[atBlock]`. -/
theorem c9_empty_sql_amended (opts : QueryOptions) (ast : AST)
    (h1 : ast.expr = none) (h2 : opts.orderByAnnots = [])
    (h3 : opts.cursor = []) (h4 : opts.orderBy = stdOrderByTail) :
    EvaluateAST ast opts =
      .ok ⟨"SELECT " ++ columnString opts ++
        " FROM payloads AS e WHERE $1 BETWEEN e.from_block AND e.to_block - 1 ORDER BY from_block, entity_key LIMIT 200",
        [.num opts.atBlock]⟩ := by
  unfold EvaluateAST
  rw [h1]
  dsimp only
  rw [h2]
  dsimp only [orderByAnnotLoop]
  unfold addPaginationArguments
  dsimp only
  rw [h3]
  dsimp only [pushArgument, orderByString]
  simp only [↓reduceIte]
  rw [h4]
  simp only [String.append_assoc, str_empty_append]
  rfl

/-- C9 witness: the amended statement at the concrete resolved options. -/
theorem c9_empty_sql_witness :
    EvaluateAST ⟨none⟩ optsC9 =
      .ok ⟨"SELECT " ++ columnString optsC9 ++
        " FROM payloads AS e WHERE $1 BETWEEN e.from_block AND e.to_block - 1 ORDER BY from_block, entity_key LIMIT 200",
        [.num optsC9.atBlock]⟩ :=
  c9_empty_sql_amended optsC9 ⟨none⟩ rfl rfl rfl rfl

end ArkivQuery
